import Mathlib

/-!
# Verification of the whiteboard scene-element model

Shallow embedding of the z-order restacking algorithms (`src/zindex.ts`),
the snapshot history (`src/history.ts`), hit-testing (`src/element/collision.ts`),
element geometry (`src/element/bounds.ts`) and the linear-element edge-handle
resize arithmetic (`src/index.tsx`), together with proofs about them.

JavaScript arrays are modelled as `List`; in-place writes become `List.set`
(which, like the uses in the source, is only exercised at in-range indices —
the few out-of-range corner cases that JavaScript would handle by `undefined`
are excluded by the hypotheses of every theorem below and are modelled by
`default` / a no-op).  JavaScript numbers are modelled exactly (`ℕ` for the
integer indices of `zindex.ts`, `ℚ` for coordinates, `ℝ` where the source
uses `Math.hypot`/`Math.cos`/`Math.sin`).
-/

namespace Whiteboard

/-! ## src/zindex.ts -/

/-- `swap` from `src/zindex.ts`: exchange `elements[indexA]` and `elements[indexB]`.
All call sites below use in-range indices (enforced by the theorems'
hypotheses), where this is exactly the three-assignment swap of the source. -/
def swap {α : Type} (l : List α) (a b : ℕ) : List α :=
  match l[a]?, l[b]? with
  | some va, some vb => (l.set a vb).set b va
  | _, _ => l

/-- The `indicesToMove.forEach` loop body of `moveOneLeft`: `i` is the position
in the (ascending-sorted) index list, the `Bool` is the `isSorted` flag. -/
def moveOneLeftGo {α : Type} : List α → List ℕ → ℕ → Bool → List α
  | els, [], _, _ => els
  | els, idx :: rest, i, isSorted =>
    let isSorted' := isSorted && (idx == i)
    if isSorted' then moveOneLeftGo els rest (i + 1) isSorted'
    else moveOneLeftGo (swap els (idx - 1) idx) rest (i + 1) isSorted'

/-- `moveOneLeft` from `src/zindex.ts`: sort the indices ascending, then bubble
each non-prefix-blocked selected element one slot toward the front. -/
def moveOneLeft {α : Type} (elements : List α) (indicesToMove : List ℕ) : List α :=
  moveOneLeftGo elements (List.insertionSort (· ≤ ·) indicesToMove) 0 true

/-- The `reversedIndicesToMove.forEach` loop body of `moveOneRight`. -/
def moveOneRightGo {α : Type} : List α → List ℕ → ℕ → Bool → List α
  | els, [], _, _ => els
  | els, idx :: rest, i, isSorted =>
    let isSorted' := isSorted && (idx == els.length - i - 1)
    if isSorted' then moveOneRightGo els rest (i + 1) isSorted'
    else moveOneRightGo (swap els (idx + 1) idx) rest (i + 1) isSorted'

/-- `moveOneRight` from `src/zindex.ts`: sort the indices descending, then
bubble each non-suffix-blocked selected element one slot toward the end. -/
def moveOneRight {α : Type} (elements : List α) (indicesToMove : List ℕ) : List α :=
  moveOneRightGo elements (List.insertionSort (fun a b => b ≤ a) indicesToMove) 0 true

/-- The inner `for (let pos = hi; pos >= lo; --pos) elements[pos + i] = elements[pos]`
loop of `moveAllLeft`, with `cnt` iterations starting at `pos = lo + cnt - 1`. -/
def copyDown {α : Type} (i lo : ℕ) : ℕ → List α → List α
  | 0, els => els
  | cnt + 1, els =>
    copyDown i lo cnt
      (match els[lo + cnt]? with
       | some v => els.set (lo + cnt + i) v
       | none => els)

/-- The `reversedIndicesToMove.forEach` loop of `moveAllLeft`: `prev` is the
previous marker (`reversedIndicesToMove[i - 1]`), `i` the running offset. -/
def markerPass {α : Type} : List α → ℕ → ℕ → List ℕ → List α
  | els, _, _, [] => els
  | els, prev, i, idx :: rest =>
    markerPass (copyDown i idx (prev - idx) els) idx (i + 1) rest

/-- The final `leftMostElements.forEach((element, i) => elements[i] = element)`
of `moveAllLeft` (writes `vs` at positions `i, i+1, ...`). -/
def writePrefix {α : Type} : List α → ℕ → List α → List α
  | els, _, [] => els
  | els, i, v :: vs => writePrefix (els.set i v) (i + 1) vs

/-- `moveAllLeft` from `src/zindex.ts`: extract the selected elements, shift
every gap between consecutive selected markers rightward by its cumulative
offset, and write the extracted elements into the leading slots. -/
def moveAllLeft {α : Type} [Inhabited α] (elements : List α) (indicesToMove : List ℕ) :
    List α :=
  let sorted := List.insertionSort (· ≤ ·) indicesToMove
  let leftMostElements := sorted.map fun idx => elements.getD idx default
  let reversedIndicesToMove := sorted.reverse ++ [0]
  let shifted := match reversedIndicesToMove with
    | [] => elements
    | m :: rest => markerPass elements m 1 rest
  writePrefix shifted 0 leftMostElements

/-- The inner `for (let pos = lo; pos < hi; ++pos) elements[pos - i] = elements[pos]`
loop of `moveAllRight`, with `cnt` iterations starting at `pos = lo`. -/
def copyUp {α : Type} (i : ℕ) : ℕ → ℕ → List α → List α
  | _, 0, els => els
  | lo, cnt + 1, els =>
    copyUp i (lo + 1) cnt
      (match els[lo]? with
       | some v => els.set (lo - i) v
       | none => els)

/-- The `indicesToMove.forEach` loop of `moveAllRight`. -/
def markerPassR {α : Type} : List α → ℕ → ℕ → List ℕ → List α
  | els, _, _, [] => els
  | els, prev, i, idx :: rest =>
    markerPassR (copyUp i (prev + 1) (idx - prev - 1) els) idx (i + 1) rest

/-- The final `rightMostElements.forEach((element, i) =>
elements[elements.length - i - 1] = element)` of `moveAllRight`. -/
def writeFromEnd {α : Type} : List α → ℕ → List α → List α
  | els, _, [] => els
  | els, i, v :: vs => writeFromEnd (els.set (els.length - 1 - i) v) (i + 1) vs

/-- `moveAllRight` from `src/zindex.ts`: extract the selected elements
(descending), shift every gap between consecutive selected markers leftward by
its cumulative offset, and write the extracted elements into the trailing
slots. -/
def moveAllRight {α : Type} [Inhabited α] (elements : List α) (indicesToMove : List ℕ) :
    List α :=
  let reversedIndicesToMove := List.insertionSort (fun a b => b ≤ a) indicesToMove
  let rightMostElements := reversedIndicesToMove.map fun idx => elements.getD idx default
  let markers := reversedIndicesToMove.reverse ++ [elements.length]
  let shifted := match markers with
    | [] => elements
    | m :: rest => markerPassR elements m 1 rest
  writeFromEnd shifted 0 rightMostElements

example : moveAllLeft [10, 20, 30, 40, 50, 60, 70] [2, 5] =
    [30, 60, 10, 20, 40, 50, 70] := by decide

example : moveAllRight [10, 20, 30, 40, 50, 60, 70] [2, 5] =
    [10, 20, 40, 50, 70, 30, 60] := by decide

example : moveOneLeft [1, 2, 3, 4, 5] [1, 3] = [2, 1, 4, 3, 5] := by decide

example : moveOneRight [1, 2, 3, 4, 5] [1, 3] = [1, 3, 2, 5, 4] := by decide

example : moveOneLeft [1, 2, 3, 4, 5] [0, 1, 3] = [1, 2, 4, 3, 5] := by decide

example : moveOneRight [1, 2, 3, 4, 5] [4, 2] = [1, 2, 4, 3, 5] := by decide

example : moveAllLeft [1, 2, 3, 4] [0] = [1, 2, 3, 4] := by decide

example : moveAllRight [1, 2, 3, 4] [3, 1] = [1, 3, 2, 4] := by decide

/-- Deletion of a strictly descending list of positions from a list:
`dropPosDesc l [p1, p2, ...]` removes the entries of `l` sitting at positions
`p1 > p2 > ...`.  Used to state what the marker loops of `moveAllLeft` and
`moveAllRight` do to the non-selected elements. -/
def dropPosDesc {α : Type} : List α → List ℕ → List α
  | l, [] => l
  | l, idx :: rest => dropPosDesc (l.take idx) rest ++ l.drop (idx + 1)

example : dropPosDesc [10, 20, 30, 40, 50, 60, 70] [5, 2] =
    [10, 20, 40, 50, 70] := by decide

/-- The gap segments of `els` strictly between the ascending markers
`prev < m1 < m2 < ...`, ending with everything after the last marker.  This is
what the marker loop of `moveAllRight` compacts toward the front. -/
def gapsAsc {α : Type} (els : List α) : ℕ → List ℕ → List α
  | prev, [] => els.drop (prev + 1)
  | prev, idx :: rest => (els.drop (prev + 1)).take (idx - prev - 1) ++ gapsAsc els idx rest

example : gapsAsc [10, 20, 30, 40, 50, 60, 70] 2 [5] = [40, 50, 70] := by decide

/-! ## src/history.ts

`SceneHistory` holds two stacks of serialized snapshot strings.  The platform
function `JSON.parse` (the only external dependency of `restoreEntry`) is
modelled as a parameter `parse : String → Option J`: `some` for a successful
parse and `none` when `JSON.parse` throws (the `try/catch` in `restoreEntry`
turns that into `null`). -/

/-- The two stacks of `SceneHistory`; the top of each stack is the last list
element, matching JavaScript `push`/`pop` at the array end. -/
structure SceneHistory where
  stateHistory : List String
  redoStack : List String
deriving DecidableEq

/-- `SceneHistory.pushEntry`: ignore a push identical to the current top,
otherwise append and clear the redo stack. -/
def pushEntry (h : SceneHistory) (newEntry : String) : SceneHistory :=
  if h.stateHistory.length > 0 && (h.stateHistory.getLast? == some newEntry) then h
  else { stateHistory := h.stateHistory ++ [newEntry], redoStack := [] }

/-- `SceneHistory.restoreEntry`: `JSON.parse` wrapped in `try/catch`. -/
def restoreEntry {J : Type} (parse : String → Option J) (entry : String) : Option J :=
  parse entry

/-- `SceneHistory.undoOnce`: pop the top of the undo stack onto the redo stack
and parse the new top (when the stack becomes empty, `JSON.parse(undefined)`
throws, which `restoreEntry` turns into `null`: modelled by `Option.bind`). -/
def undoOnce {J : Type} (parse : String → Option J) (h : SceneHistory) :
    Option J × SceneHistory :=
  match h.stateHistory.getLast? with
  | none => (none, h)
  | some currentEntry =>
    let stateHistory := h.stateHistory.dropLast
    (stateHistory.getLast?.bind (restoreEntry parse),
     { stateHistory := stateHistory, redoStack := h.redoStack ++ [currentEntry] })

/-- `SceneHistory.redoOnce`: pop the top of the redo stack, push it back onto
the undo stack and parse it. -/
def redoOnce {J : Type} (parse : String → Option J) (h : SceneHistory) :
    Option J × SceneHistory :=
  match h.redoStack.getLast? with
  | none => (none, h)
  | some entryToRestore =>
    (restoreEntry parse entryToRestore,
     { stateHistory := h.stateHistory ++ [entryToRestore],
       redoStack := h.redoStack.dropLast })

/-! ## src/element/bounds.ts and src/element/collision.ts (box shapes, over ℚ)

`distanceBetweenPointAndSegment` and `rotate` live in the repository's math
module (`../math`); their bodies appear verbatim in the repository alongside
`src/index.tsx` and are translated from there.  The source compares
`Math.hypot dx dy < threshold`; to stay in exact arithmetic the ℚ embedding
computes the squared distance `dx*dx + dy*dy` and every comparison
`dist < t` of the source becomes the equivalent `distSq < t^2` (both sides
are non-negative, squaring is strictly monotone). -/

/-- Squared version of `distanceBetweenPointAndSegment` (project the point on
the segment, clamping the parameter to `[0, 1]`; `-1` when the segment is
degenerate, exactly as in the source). -/
def distanceSqBetweenPointAndSegment (x y x1 y1 x2 y2 : ℚ) : ℚ :=
  let A := x - x1
  let B := y - y1
  let C := x2 - x1
  let D := y2 - y1
  let dot := A * C + B * D
  let lenSquare := C * C + D * D
  let param : ℚ := if lenSquare ≠ 0 then dot / lenSquare else -1
  let xx := if param < 0 then x1 else if param > 1 then x2 else x1 + param * C
  let yy := if param < 0 then y1 else if param > 1 then y2 else y1 + param * D
  let dx := x - xx
  let dy := y - yy
  dx * dx + dy * dy

/-- The fields of a box-like element that `hitTest` (rectangle branch) and
`getDiamondPoints` read. -/
structure BoxElement where
  x : ℚ
  y : ℚ
  width : ℚ
  height : ℚ
  backgroundColor : String

/-- `getElementAbsoluteCoords` from `src/element/bounds.ts` (non-linear
branch): `[x, y, x + width, y + height]`. -/
def getElementAbsoluteCoords (e : BoxElement) : ℚ × ℚ × ℚ × ℚ :=
  (e.x, e.y, e.x + e.width, e.y + e.height)

/-- The rectangle branch of `hitTest` from `src/element/collision.ts`:
expanded-box containment when filled, within-threshold of one of the four
edge segments when unfilled. -/
def hitTestRectangle (e : BoxElement) (x y : ℚ) : Bool :=
  let lineThreshold : ℚ := 10
  let c := getElementAbsoluteCoords e
  let x1 := c.1
  let y1 := c.2.1
  let x2 := c.2.2.1
  let y2 := c.2.2.2
  if e.backgroundColor ≠ "transparent" then
    decide (x > x1 - lineThreshold) && decide (x < x2 + lineThreshold) &&
      decide (y > y1 - lineThreshold) && decide (y < y2 + lineThreshold)
  else
    decide (distanceSqBetweenPointAndSegment x y x1 y1 x2 y1 < lineThreshold ^ 2) ||
      decide (distanceSqBetweenPointAndSegment x y x2 y1 x2 y2 < lineThreshold ^ 2) ||
      decide (distanceSqBetweenPointAndSegment x y x2 y2 x1 y2 < lineThreshold ^ 2) ||
      decide (distanceSqBetweenPointAndSegment x y x1 y2 x1 y1 < lineThreshold ^ 2)

/-- The result of `getDiamondPoints` from `src/element/bounds.ts`
(`[topX, topY, rightX, rightY, bottomX, bottomY, leftX, leftY]`). -/
structure DiamondPoints where
  topX : ℚ
  topY : ℚ
  rightX : ℚ
  rightY : ℚ
  bottomX : ℚ
  bottomY : ℚ
  leftX : ℚ
  leftY : ℚ
deriving DecidableEq

/-- `getDiamondPoints` from `src/element/bounds.ts`: the four diamond vertices,
with `Math.floor(width / 2) + 1` / `Math.floor(height / 2) + 1` midpoint
coordinates (the `+ 1` avoids rough.js complaining about `0`). -/
def getDiamondPoints (e : BoxElement) : DiamondPoints :=
  let topX : ℚ := (Int.floor (e.width / 2) : ℤ) + 1
  let topY : ℚ := 0
  let rightX : ℚ := e.width
  let rightY : ℚ := (Int.floor (e.height / 2) : ℤ) + 1
  { topX := topX, topY := topY, rightX := rightX, rightY := rightY,
    bottomX := topX, bottomY := e.height, leftX := topY, leftY := rightY }

/-! ## src/index.tsx — edge-handle resize of linear elements (cases n/w/s/e)

The source sorts *a copy* of `element.points` by the resized coordinate
(`[...element.points].sort(...)`) and then mutates the shared point objects,
so `element.points` keeps its original order while the point whose position
in the sorted copy is `i` receives the adjustment `delta / (len - i)`.
JavaScript's sort is stable, so that position is the stable rank computed by
`stableRank` below, and the embedding updates each point of the original list
according to its stable rank. -/

/-- A linear element as read by the resize switch of `src/index.tsx`:
anchor, box dimensions and the relative point list. -/
structure LinearElement where
  x : ℚ
  y : ℚ
  width : ℚ
  height : ℚ
  points : List (ℚ × ℚ)

/-- The position that the point at index `j` of `ps` occupies after stably
sorting `ps` by the key `key`: the number of points with a strictly smaller
key plus the number of equal-key points at smaller original indices. -/
def stableRank (key : ℚ × ℚ → ℚ) (ps : List (ℚ × ℚ)) (j : ℕ) : ℕ :=
  (ps.enum.filter fun q =>
    key q.2 < key (ps.getD j default) ∨
      (key q.2 = key (ps.getD j default) ∧ q.1 < j)).length

/-- The `case "n"` point loop: points sorted by `y`, the point at sorted
position `i ≥ 1` gets `pnt[1] -= deltaY / (len - i)`. -/
def resizePointsN (ps : List (ℚ × ℚ)) (deltaY : ℚ) : List (ℚ × ℚ) :=
  let len := ps.length
  ps.enum.map fun q =>
    let r := stableRank Prod.snd ps q.1
    if 1 ≤ r then (q.2.1, q.2.2 - deltaY / ((len : ℚ) - (r : ℚ))) else q.2

/-- The `case "s"` point loop: `pnt[1] += deltaY / (len - i)` for sorted
position `i ≥ 1`. -/
def resizePointsS (ps : List (ℚ × ℚ)) (deltaY : ℚ) : List (ℚ × ℚ) :=
  let len := ps.length
  ps.enum.map fun q =>
    let r := stableRank Prod.snd ps q.1
    if 1 ≤ r then (q.2.1, q.2.2 + deltaY / ((len : ℚ) - (r : ℚ))) else q.2

/-- The `case "e"` point loop: points sorted by `x`,
`pnt[0] += deltaX / (len - i)` for sorted position `i ≥ 1`. -/
def resizePointsE (ps : List (ℚ × ℚ)) (deltaX : ℚ) : List (ℚ × ℚ) :=
  let len := ps.length
  ps.enum.map fun q =>
    let r := stableRank Prod.fst ps q.1
    if 1 ≤ r then (q.2.1 + deltaX / ((len : ℚ) - (r : ℚ)), q.2.2) else q.2

/-- The `case "w"` point loop: `pnt[0] -= deltaX / (len - i)` for *every*
sorted position `i ≥ 0` (this loop starts at `i = 0`, unlike n/s/e). -/
def resizePointsW (ps : List (ℚ × ℚ)) (deltaX : ℚ) : List (ℚ × ℚ) :=
  let len := ps.length
  ps.enum.map fun q =>
    let r := stableRank Prod.fst ps q.1
    (q.2.1 - deltaX / ((len : ℚ) - (r : ℚ)), q.2.2)

/-- `case "n"` of the resize switch in `src/index.tsx`:
`height -= deltaY; y += deltaY` plus the point loop. -/
def resizeHandleN (e : LinearElement) (deltaY : ℚ) : LinearElement :=
  { e with height := e.height - deltaY, y := e.y + deltaY,
           points := resizePointsN e.points deltaY }

/-- `case "w"`: `width -= deltaX; x += deltaX` plus the point loop. -/
def resizeHandleW (e : LinearElement) (deltaX : ℚ) : LinearElement :=
  { e with width := e.width - deltaX, x := e.x + deltaX,
           points := resizePointsW e.points deltaX }

/-- `case "s"`: `height += deltaY` plus the point loop. -/
def resizeHandleS (e : LinearElement) (deltaY : ℚ) : LinearElement :=
  { e with height := e.height + deltaY, points := resizePointsS e.points deltaY }

/-- `case "e"`: `width += deltaX` plus the point loop. -/
def resizeHandleE (e : LinearElement) (deltaX : ℚ) : LinearElement :=
  { e with width := e.width + deltaX, points := resizePointsE e.points deltaX }

/-! ## src/element/bounds.ts and src/element/collision.ts — arrows (over ℝ)

`getArrowPoints` uses `Math.hypot`, `Math.cos` and `Math.sin`, so this part of
the embedding lives in ℝ. -/

/-- `Math.hypot`. -/
noncomputable def hypot (x y : ℝ) : ℝ := Real.sqrt (x * x + y * y)

/-- `rotate` from the repository's math module: rotate `(x1, y1)` around
`(x2, y2)` by `angle`. -/
noncomputable def rotate (x1 y1 x2 y2 angle : ℝ) : ℝ × ℝ :=
  ((x1 - x2) * Real.cos angle - (y1 - y2) * Real.sin angle + x2,
   (x1 - x2) * Real.sin angle + (y1 - y2) * Real.cos angle + y2)

/-- The fields of an arrow element read by `getArrowPoints` and the arrow
branch of `hitTest`. -/
structure ArrowElement where
  x : ℝ
  y : ℝ
  points : List (ℝ × ℝ)

/-- The `element.points.reduce` computing the cumulative polyline length in
`getArrowPoints`: each point contributes its distance to the previous one,
the first point (`idx = 0`) its distance to `[0, 0]`.  The reduce is the fold
carrying the previous point, seeded with `(0, 0)`. -/
noncomputable def arrowLengthFrom (prev : ℝ × ℝ) : List (ℝ × ℝ) → ℝ
  | [] => 0
  | p :: rest => hypot (p.1 - prev.1) (p.2 - prev.2) + arrowLengthFrom p rest

/-- `getArrowPoints` from `src/element/bounds.ts`: returns the SIX-element
array `[x2, y2, x3, y3, x4, y4]` — the tip of the last segment and the two
arrowhead wing endpoints, each at distance `min(30, arrowLength / 2)` from
the tip, rotated ∓20° about it.  An empty `points` list would make the source
throw on destructuring `points[points.length - 1]`; the claims below only
concern non-empty point lists and the embedding uses `(0, 0)` as the
(unreachable) default. -/
noncomputable def getArrowPoints (e : ArrowElement) : List ℝ :=
  let points := e.points
  let p1 := if points.length ≥ 2 then points.getD (points.length - 2) (0, 0) else (0, 0)
  let p2 := points.getD (points.length - 1) (0, 0)
  let x1 := p1.1
  let y1 := p1.2
  let x2 := p2.1
  let y2 := p2.2
  let size : ℝ := 30
  let distance := hypot (x2 - x1) (y2 - y1)
  let arrowLength := arrowLengthFrom (0, 0) points
  let minSize := min size (arrowLength / 2)
  let xs := x2 - ((x2 - x1) / distance) * minSize
  let ys := y2 - ((y2 - y1) / distance) * minSize
  let angle : ℝ := 20
  let w3 := rotate xs ys x2 y2 (-angle * Real.pi / 180)
  let w4 := rotate xs ys x2 y2 (angle * Real.pi / 180)
  [x2, y2, w3.1, w3.2, w4.1, w4.2]

/-- Squared `distanceBetweenPointAndSegment` over ℝ (same structure as the ℚ
version; the source compares `Math.hypot dx dy < threshold`, the embedding
compares the square against `threshold ^ 2`). -/
noncomputable def distanceSqSegReal (x y x1 y1 x2 y2 : ℝ) : ℝ :=
  let A := x - x1
  let B := y - y1
  let C := x2 - x1
  let D := y2 - y1
  let dot := A * C + B * D
  let lenSquare := C * C + D * D
  let param : ℝ := if lenSquare ≠ 0 then dot / lenSquare else -1
  let xx := if param < 0 then x1 else if param > 1 then x2 else x1 + param * C
  let yy := if param < 0 then y1 else if param > 1 then y2 else y1 + param * D
  let dx := x - xx
  let dy := y - yy
  dx * dx + dy * dy

/-- One `distanceBetweenPointAndSegment(...) < lineThreshold` test of the
arrow branch, fed with optional coordinates: the arrow branch of `hitTest`
destructures EIGHT names `[x1, y1, x2, y2, x3, y3, x4, y4]` out of
`getArrowPoints`' six-element result, so two of them are `undefined`; any
arithmetic on `undefined` yields `NaN` and `NaN < 10` is `false`, modelled by
the `False` fallback. -/
noncomputable def segmentTestOpt (x y : ℝ) :
    Option ℝ → Option ℝ → Option ℝ → Option ℝ → Prop
  | some x1, some y1, some x2, some y2 => distanceSqSegReal x y x1 y1 x2 y2 < 10 ^ 2
  | _, _, _, _ => False

/-- The arrow branch of `hitTest` from `src/element/collision.ts`: translate
the query point by the element anchor, then test the three segments
`(x3,y3)-(x2,y2)`, `(x1,y1)-(x2,y2)` and `(x4,y4)-(x2,y2)` of the
destructuring (positions 4/5, 0/1, 6/7 against 2/3 of the returned array). -/
noncomputable def hitTestArrow (e : ArrowElement) (x y : ℝ) : Prop :=
  let pts := getArrowPoints e
  let xt := x - e.x
  let yt := y - e.y
  segmentTestOpt xt yt pts[4]? pts[5]? pts[2]? pts[3]? ∨
    segmentTestOpt xt yt pts[0]? pts[1]? pts[2]? pts[3]? ∨
      segmentTestOpt xt yt pts[6]? pts[7]? pts[2]? pts[3]?

/-- The geometric length of a polyline (sum of the lengths of its consecutive
segments); used to state what `getArrowPoints`' cumulative `arrowLength` is. -/
noncomputable def polylineLength : List (ℝ × ℝ) → ℝ
  | p :: q :: rest => hypot (q.1 - p.1) (q.2 - p.2) + polylineLength (q :: rest)
  | _ => 0

/-- A concrete `JSON.parse` model for witnesses and counterexamples: only the
string `"{}"` parses. -/
def parse0 : String → Option Unit := fun s => if s = "{}" then some () else none

/-- The tip of an arrow: its last point (`points[points.length - 1]`). -/
noncomputable def arrowTip (e : ArrowElement) : ℝ × ℝ :=
  e.points.getD (e.points.length - 1) (0, 0)

/-- The point before the tip (`points[points.length - 2]`), start of the last
segment. -/
noncomputable def arrowPrev (e : ArrowElement) : ℝ × ℝ :=
  e.points.getD (e.points.length - 2) (0, 0)

/-- The wing length of the arrowhead: 30 px capped by half the cumulative
polyline length. -/
noncomputable def arrowWingSize (e : ArrowElement) : ℝ :=
  min 30 (polylineLength e.points / 2)

/-- The point at distance `arrowWingSize` from the tip along the reverse of
the last segment's direction: the wings are this point rotated ∓20° about the
tip. -/
noncomputable def arrowBase (e : ArrowElement) : ℝ × ℝ :=
  ((arrowTip e).1 -
      (((arrowTip e).1 - (arrowPrev e).1) /
          hypot ((arrowTip e).1 - (arrowPrev e).1) ((arrowTip e).2 - (arrowPrev e).2)) *
        arrowWingSize e,
    (arrowTip e).2 -
      (((arrowTip e).2 - (arrowPrev e).2) /
          hypot ((arrowTip e).1 - (arrowPrev e).1) ((arrowTip e).2 - (arrowPrev e).2)) *
        arrowWingSize e)

theorem hypot_nonneg (x y : ℝ) : 0 ≤ hypot x y := Real.sqrt_nonneg _

theorem hypot_zero : hypot 0 0 = 0 := by
  unfold hypot
  simp

theorem hypot_pos {x y : ℝ} (h : ¬(x = 0 ∧ y = 0)) : 0 < hypot x y := by
  have hsum : 0 < x * x + y * y := by
    rcases not_and_or.mp h with hx | hy
    · have : 0 < x * x := mul_self_pos.mpr hx
      nlinarith [mul_self_nonneg y]
    · have : 0 < y * y := mul_self_pos.mpr hy
      nlinarith [mul_self_nonneg x]
  exact Real.sqrt_pos.mpr hsum

theorem hypot_sq {x y : ℝ} : hypot x y ^ 2 = x ^ 2 + y ^ 2 := by
  unfold hypot
  rw [Real.sq_sqrt (by nlinarith [mul_self_nonneg x, mul_self_nonneg y])]
  ring

theorem polylineLength_nonneg (ps : List (ℝ × ℝ)) : 0 ≤ polylineLength ps := by
  induction ps with
  | nil => simp [polylineLength]
  | cons p rest ih =>
    cases rest with
    | nil => simp [polylineLength]
    | cons q rest2 =>
      unfold polylineLength
      have := hypot_nonneg (q.1 - p.1) (q.2 - p.2)
      have h2 : 0 ≤ polylineLength (q :: rest2) := ih
      linarith

theorem arrowLengthFrom_cons_eq (rest : List (ℝ × ℝ)) :
    ∀ p : ℝ × ℝ, arrowLengthFrom p rest = polylineLength (p :: rest) := by
  induction rest with
  | nil => intro p; simp [arrowLengthFrom, polylineLength]
  | cons q rest2 ih =>
    intro p
    unfold arrowLengthFrom polylineLength
    rw [ih q]

/-- When the first point is `(0, 0)` (the linear-element invariant), the
source's cumulative `reduce` equals the geometric polyline length. -/
theorem arrowLength_eq_polylineLength {e : ArrowElement}
    (hne : e.points ≠ [])
    (hfirst : e.points.getD 0 (0, 0) = (0, 0)) :
    arrowLengthFrom (0, 0) e.points = polylineLength e.points := by
  cases hp : e.points with
  | nil => exact absurd hp hne
  | cons p rest =>
    rw [hp] at hfirst
    simp only [List.getD_cons_zero] at hfirst
    subst hfirst
    unfold arrowLengthFrom
    rw [arrowLengthFrom_cons_eq]
    simp only [sub_self, hypot_zero, zero_add]

/-- In every branch of the point-to-segment distance, the projected point has
abscissa between the endpoints; so when both endpoints lie right of `b` and
the query point left of it, the squared distance is at least `(b - x)²`. -/
theorem distSqSegReal_ge_left {x y x1 y1 x2 y2 b : ℝ} (h1 : b ≤ x1) (h2 : b ≤ x2)
    (hx : x ≤ b) : (b - x) ^ 2 ≤ distanceSqSegReal x y x1 y1 x2 y2 := by
  have key : ∀ xx yy : ℝ, b ≤ xx → (b - x) ^ 2 ≤ (x - xx) * (x - xx) + (y - yy) * (y - yy) := by
    intro xx yy hbx
    nlinarith [mul_self_nonneg (y - yy),
      mul_nonneg (sub_nonneg.mpr hbx) (by linarith : (0 : ℝ) ≤ xx + b - 2 * x)]
  unfold distanceSqSegReal
  dsimp only
  split_ifs with hlen hp0 hp1 hp2 hp3
  · exact key _ _ h1
  · exact key _ _ h2
  · -- interpolation branch: 0 ≤ param ≤ 1
    push_neg at hp0 hp1
    refine key _ _ ?_
    set L := (x2 - x1) * (x2 - x1) + (y2 - y1) * (y2 - y1) with hL
    set dot := (x - x1) * (x2 - x1) + (y - y1) * (y2 - y1) with hdot
    have hL0 : 0 < L :=
      lt_of_le_of_ne
        (by nlinarith [mul_self_nonneg (x2 - x1), mul_self_nonneg (y2 - y1)])
        (Ne.symm hlen)
    have e1 : x1 + dot / L * (x2 - x1) - b =
        (1 - dot / L) * (x1 - b) + dot / L * (x2 - b) := by ring
    nlinarith [mul_nonneg (by linarith : (0 : ℝ) ≤ 1 - dot / L)
        (by linarith : (0 : ℝ) ≤ x1 - b),
      mul_nonneg hp0 (by linarith : (0 : ℝ) ≤ x2 - b)]
  · exact key _ _ h1
  · exact key _ _ h2
  · exact absurd (by norm_num : (-1 : ℝ) < 0) hp2

theorem rotate_dist_sq (x1 y1 x2 y2 angle : ℝ) :
    ((rotate x1 y1 x2 y2 angle).1 - x2) ^ 2 + ((rotate x1 y1 x2 y2 angle).2 - y2) ^ 2 =
      (x1 - x2) ^ 2 + (y1 - y2) ^ 2 := by
  unfold rotate
  simp only []
  have hpyth := Real.sin_sq_add_cos_sq angle
  nlinarith [hpyth]

/-- `getArrowPoints` on the horizontal arrow `[(0,0), (100,0)]`: tip `(100,0)`
and the two wings `(100 - 30·cos 20°, ±30·sin 20°)`. -/
theorem getArrowPoints_shaft_example :
    getArrowPoints ⟨0, 0, [(0, 0), (100, 0)]⟩ =
      [100, 0, 100 - 30 * Real.cos (20 * Real.pi / 180),
        30 * Real.sin (20 * Real.pi / 180),
        100 - 30 * Real.cos (20 * Real.pi / 180),
        -(30 * Real.sin (20 * Real.pi / 180))] := by
  have hyp100 : hypot 100 0 = 100 := by
    unfold hypot
    rw [show (100 : ℝ) * 100 + 0 * 0 = 100 ^ 2 by norm_num]
    rw [Real.sqrt_sq (by norm_num : (0 : ℝ) ≤ 100)]
  have hyp0 : hypot 0 0 = 0 := hypot_zero
  have hc : Real.cos (-(20 * Real.pi) / 180) = Real.cos (20 * Real.pi / 180) := by
    rw [show -(20 * Real.pi) / 180 = -(20 * Real.pi / 180) by ring, Real.cos_neg]
  have hs : Real.sin (-(20 * Real.pi) / 180) = -Real.sin (20 * Real.pi / 180) := by
    rw [show -(20 * Real.pi) / 180 = -(20 * Real.pi / 180) by ring, Real.sin_neg]
  simp only [getArrowPoints, arrowLengthFrom, rotate, List.getD_cons_zero,
    List.getD_cons_succ, List.length_cons, List.length_nil]
  norm_num [hyp100, hyp0]
  refine ⟨?_, ?_, ?_⟩
  · rw [hc]
    ring
  · rw [hs]
    ring
  · ring

/-! ## Helper lemmas about `swap` -/

theorem swap_length {α : Type} (l : List α) (a b : ℕ) :
    (swap l a b).length = l.length := by
  unfold swap
  cases h1 : l[a]? <;> cases h2 : l[b]? <;> simp

theorem swap_eq_of_fst_none {α : Type} {l : List α} {a b : ℕ} (h : l[a]? = none) :
    swap l a b = l := by
  unfold swap
  rw [h]

theorem swap_comm {α : Type} (l : List α) (a b : ℕ) : swap l a b = swap l b a := by
  by_cases hab : a = b
  · rw [hab]
  · unfold swap
    cases h1 : l[a]? <;> cases h2 : l[b]? <;> try rfl
    exact List.set_comm _ _ l hab

theorem swap_self {α : Type} (l : List α) (a : ℕ) : swap l a a = l := by
  unfold swap
  cases h1 : l[a]? with
  | none => rfl
  | some v =>
    show (l.set a v).set a v = l
    rw [List.set_set]
    have hlt : a < l.length := by
      by_contra hge
      rw [List.getElem?_eq_none (le_of_not_lt hge)] at h1
      exact Option.noConfusion h1
    apply List.ext_getElem?
    intro q
    by_cases hq : q = a
    · subst hq
      rw [List.getElem?_set_self hlt, h1]
    · rw [List.getElem?_set_ne (fun h => hq h.symm)]

theorem swap_getElem?_fst {α : Type} {l : List α} {a b : ℕ} (ha : a < l.length)
    (hb : b < l.length) : (swap l a b)[a]? = l[b]? := by
  by_cases hab : a = b
  · subst hab
    rw [swap_self]
  · unfold swap
    rw [List.getElem?_eq_getElem ha, List.getElem?_eq_getElem hb]
    rw [List.getElem?_set_ne (fun h => hab h.symm)]
    rw [List.getElem?_set_self (by simpa using ha)]

theorem swap_getElem?_snd {α : Type} {l : List α} {a b : ℕ} (ha : a < l.length)
    (hb : b < l.length) : (swap l a b)[b]? = l[a]? := by
  rw [swap_comm]
  exact swap_getElem?_fst hb ha

theorem swap_getElem?_other {α : Type} {l : List α} {a b q : ℕ} (hqa : q ≠ a)
    (hqb : q ≠ b) : (swap l a b)[q]? = l[q]? := by
  unfold swap
  cases h1 : l[a]? <;> cases h2 : l[b]? <;> try rfl
  rw [List.getElem?_set_ne (fun h => hqb h.symm),
    List.getElem?_set_ne (fun h => hqa h.symm)]

theorem swap_swap {α : Type} {l : List α} {a b : ℕ} (ha : a < l.length)
    (hb : b < l.length) : swap (swap l a b) a b = l := by
  have hlen := swap_length l a b
  have ha2 : a < (swap l a b).length := by rw [hlen]; exact ha
  have hb2 : b < (swap l a b).length := by rw [hlen]; exact hb
  apply List.ext_getElem?
  intro q
  by_cases hqa : q = a
  · subst hqa
    rw [swap_getElem?_fst ha2 hb2, swap_getElem?_snd ha hb]
  · by_cases hqb : q = b
    · subst hqb
      rw [swap_getElem?_snd ha2 hb2, swap_getElem?_fst ha hb]
    · rw [swap_getElem?_other hqa hqb, swap_getElem?_other hqa hqb]

theorem swap_cons_succ {α : Type} (x : α) (l : List α) (a b : ℕ) :
    swap (x :: l) (a + 1) (b + 1) = x :: swap l a b := by
  unfold swap
  rw [List.getElem?_cons_succ, List.getElem?_cons_succ]
  cases h1 : l[a]? <;> cases h2 : l[b]? <;> simp

theorem cons_set_perm {α : Type} :
    ∀ (l : List α) (m : ℕ) (hm : m < l.length) (x : α),
      List.Perm (x :: l) (l[m] :: l.set m x) := by
  intro l
  induction l with
  | nil => intro m hm; simp at hm
  | cons y ys ih =>
    intro m hm x
    match m with
    | 0 => exact List.Perm.swap y x ys
    | k + 1 =>
      have hk : k < ys.length := by simpa using hm
      have hget : (y :: ys)[k + 1] = ys[k] := by simp
      have hset : (y :: ys).set (k + 1) x = y :: ys.set k x := rfl
      rw [hget, hset]
      exact ((List.Perm.swap y x ys).trans
        (List.Perm.cons y (ih k hk x))).trans (List.Perm.swap ys[k] y (ys.set k x))

theorem swap_perm {α : Type} :
    ∀ (l : List α) (a b : ℕ), a < l.length → b < l.length → List.Perm (swap l a b) l := by
  intro l
  induction l with
  | nil => intro a b ha _; simp at ha
  | cons x xs ih =>
    have key : ∀ k, k < xs.length → List.Perm (swap (x :: xs) 0 (k + 1)) (x :: xs) := by
      intro k hk
      have hcalc : swap (x :: xs) 0 (k + 1) = xs[k] :: xs.set k x := by
        unfold swap
        rw [List.getElem?_cons_zero, List.getElem?_cons_succ,
          List.getElem?_eq_getElem hk]
        simp
      rw [hcalc]
      exact (cons_set_perm xs k hk x).symm
    intro a b ha hb
    match a, b with
    | 0, 0 =>
      rw [swap_self]
    | 0, k + 1 => exact key k (by simpa using hb)
    | j + 1, 0 =>
      rw [swap_comm]
      exact key j (by simpa using ha)
    | j + 1, k + 1 =>
      rw [swap_cons_succ]
      exact List.Perm.cons x (ih j k (by simpa using ha) (by simpa using hb))

/-! ## Helper lemmas about `moveOneLeft` and `moveOneRight` -/

instance : IsTotal ℕ (fun a b => b ≤ a) := ⟨fun a b => le_total b a⟩

instance : IsTrans ℕ (fun a b => b ≤ a) := ⟨fun _ _ _ h1 h2 => le_trans h2 h1⟩

instance : IsAntisymm ℕ (fun a b => b ≤ a) := ⟨fun _ _ h1 h2 => le_antisymm h2 h1⟩

theorem moveOneLeftGo_false {α : Type} :
    ∀ (rest : List ℕ) (els : List α) (i : ℕ),
      moveOneLeftGo els rest i false =
        rest.foldl (fun a x => swap a (x - 1) x) els := by
  intro rest
  induction rest with
  | nil => intro els i; rfl
  | cons x rest2 ih =>
    intro els i
    unfold moveOneLeftGo
    simp only [Bool.false_and, if_neg]
    exact ih _ _

theorem moveOneRightGo_false {α : Type} :
    ∀ (rest : List ℕ) (els : List α) (i : ℕ),
      moveOneRightGo els rest i false =
        rest.foldl (fun a x => swap a (x + 1) x) els := by
  intro rest
  induction rest with
  | nil => intro els i; rfl
  | cons x rest2 ih =>
    intro els i
    unfold moveOneRightGo
    simp only [Bool.false_and, if_neg]
    exact ih _ _

theorem moveOneLeftGo_getElem?_low {α : Type} :
    ∀ (rest : List ℕ) (els : List α) (i : ℕ) (b : Bool) (q : ℕ),
      (∀ x ∈ rest, q + 1 < x) →
      (moveOneLeftGo els rest i b)[q]? = els[q]? := by
  intro rest
  induction rest with
  | nil => intro els i b q _; rfl
  | cons x rest2 ih =>
    intro els i b q hq
    unfold moveOneLeftGo
    dsimp only
    split_ifs with hs
    · exact ih els (i + 1) _ q fun y hy => hq y (List.mem_cons_of_mem x hy)
    · have hx := hq x (List.mem_cons_self x rest2)
      rw [ih _ (i + 1) _ q fun y hy => hq y (List.mem_cons_of_mem x hy)]
      exact swap_getElem?_other (by omega) (by omega)

theorem moveOneLeftGo_getElem?_lt_counter {α : Type} :
    ∀ (rest : List ℕ) (els : List α) (i : ℕ) (q : ℕ),
      List.Pairwise (· < ·) rest →
      (∀ x ∈ rest, i ≤ x) →
      q < i →
      (moveOneLeftGo els rest i true)[q]? = els[q]? := by
  intro rest
  induction rest with
  | nil => intro els i q _ _ _; rfl
  | cons x rest2 ih =>
    intro els i q hp hge hq
    obtain ⟨hx2, hp2⟩ := List.pairwise_cons.mp hp
    have hxi : i ≤ x := hge x (List.mem_cons_self x rest2)
    unfold moveOneLeftGo
    dsimp only
    split_ifs with hs
    · -- blocked step: x = i, recurse with counter i+1
      rw [hs]
      exact ih els (i + 1) q hp2
        (fun y hy => Nat.succ_le_of_lt (lt_of_le_of_lt hxi (hx2 y hy))) (by omega)
    · -- unblocked step: x > i, the swap happens at (x-1, x) with x - 1 ≥ i > q
      have hs' : (true && (x == i)) = false := Bool.eq_false_iff.mpr hs
      rw [hs']
      have hxi2 : x ≠ i := by
        intro h
        apply hs
        simp [h]
      have hxgt : i < x := lt_of_le_of_ne hxi (Ne.symm hxi2)
      rw [moveOneLeftGo_getElem?_low rest2 _ (i + 1) false q
        (fun y hy => by have := hx2 y hy; omega)]
      exact swap_getElem?_other (by omega) (by omega)

theorem moveOneLeftGo_spec {α : Type} :
    ∀ (rest : List ℕ) (els : List α) (i : ℕ) (b : Bool),
      List.Pairwise (· < ·) rest →
      (∀ x ∈ rest, x < els.length) →
      (b = true → ∀ x ∈ rest, i ≤ x) →
      (b = false → ∀ x ∈ rest, 1 ≤ x) →
      ∀ t, t < rest.length →
        ((b = true ∧ ∀ s, s ≤ t → rest.getD s 0 = i + s) →
          (moveOneLeftGo els rest i b)[rest.getD t 0]? = els[rest.getD t 0]?) ∧
        (¬(b = true ∧ ∀ s, s ≤ t → rest.getD s 0 = i + s) →
          (moveOneLeftGo els rest i b)[rest.getD t 0 - 1]? = els[rest.getD t 0]?) := by
  intro rest
  induction rest with
  | nil => intro els i b _ _ _ _ t ht; simp at ht
  | cons x rest2 ih =>
    intro els i b hp hin hbt hbf t ht
    obtain ⟨hx2, hp2⟩ := List.pairwise_cons.mp hp
    have hxlen : x < els.length := hin x (List.mem_cons_self x rest2)
    unfold moveOneLeftGo
    dsimp only
    split_ifs with hs
    · -- blocked step: b = true and x = i
      obtain ⟨hb, hxi⟩ := by simpa using hs
      subst hb
      rw [hs]
      cases t with
      | zero =>
        constructor
        · intro _
          simp only [List.getD_cons_zero]
          exact moveOneLeftGo_getElem?_lt_counter rest2 els (i + 1) x hp2
            (fun y hy => by have := hx2 y hy; omega) (by omega)
        · intro hnot
          exact absurd ⟨rfl, fun s hs0 => by
            interval_cases s
            simpa using hxi⟩ hnot
      | succ t2 =>
        have ht2 : t2 < rest2.length := by simpa using ht
        have hIH := ih els (i + 1) true hp2
          (fun y hy => hin y (List.mem_cons_of_mem x hy))
          (fun _ y hy => by have := hx2 y hy; omega)
          (fun hcontra => by exact absurd hcontra (by simp)) t2 ht2
        have hcond : ((true = true ∧ ∀ s, s ≤ t2 + 1 →
            (x :: rest2).getD s 0 = i + s) ↔
            (true = true ∧ ∀ s, s ≤ t2 → rest2.getD s 0 = (i + 1) + s)) := by
          constructor
          · rintro ⟨-, hc⟩
            refine ⟨rfl, fun s hst => ?_⟩
            have := hc (s + 1) (by omega)
            simpa [Nat.add_assoc, Nat.add_comm 1 s] using this
          · rintro ⟨-, hc⟩
            refine ⟨rfl, fun s hst => ?_⟩
            cases s with
            | zero => simpa using hxi
            | succ s2 =>
              have := hc s2 (by omega)
              simp only [List.getD_cons_succ]
              omega
        constructor
        · intro hc
          exact hIH.1 (hcond.mp hc)
        · intro hc
          exact hIH.2 fun h2 => hc (hcond.mpr h2)
    · -- unblocked step: swap at (x - 1, x), flag drops to false
      have hs' : (b && (x == i)) = false := Bool.eq_false_iff.mpr hs
      rw [hs']
      have hx1 : 1 ≤ x := by
        cases b with
        | true =>
          have hxi : x ≠ i := by
            intro h
            apply hs
            simp [h]
          have := hbt rfl x (List.mem_cons_self x rest2)
          omega
        | false => exact hbf rfl x (List.mem_cons_self x rest2)
      cases t with
      | zero =>
        simp only [List.getD_cons_zero]
        constructor
        · rintro ⟨hb, hc⟩
          subst hb
          have hx0 : x = i := by simpa using hc 0 (Nat.le_refl 0)
          exact absurd (by simp [hx0]) hs
        · intro _
          rw [moveOneLeftGo_getElem?_low rest2 _ (i + 1) false (x - 1)
            (fun y hy => by have := hx2 y hy; omega)]
          exact swap_getElem?_fst (by omega) hxlen
      | succ t2 =>
        have ht2 : t2 < rest2.length := by simpa using ht
        have hIH := ih (swap els (x - 1) x) (i + 1) false hp2
          (fun y hy => by rw [swap_length]; exact hin y (List.mem_cons_of_mem x hy))
          (fun hcontra => absurd hcontra (by simp))
          (fun _ y hy => by have := hx2 y hy; omega) t2 ht2
        have hmem : rest2.getD t2 0 ∈ rest2 := by
          rw [List.getD_eq_getElem _ _ ht2]
          exact List.getElem_mem ht2
        have hgt : x < rest2.getD t2 0 := hx2 _ hmem
        constructor
        · rintro ⟨hb, hc⟩
          subst hb
          have hx0 : x = i := by simpa using hc 0 (Nat.zero_le _)
          exact absurd (by simp [hx0]) hs
        · intro _
          have hstep := hIH.2 (by simp)
          show (moveOneLeftGo (swap els (x - 1) x) rest2 (i + 1)
            false)[rest2.getD t2 0 - 1]? = els[rest2.getD t2 0]?
          rw [hstep]
          exact swap_getElem?_other (by omega) (by omega)

theorem moveOneLeftGo_perm {α : Type} :
    ∀ (rest : List ℕ) (els : List α) (i : ℕ) (b : Bool),
      (∀ x ∈ rest, x < els.length) →
      List.Perm (moveOneLeftGo els rest i b) els := by
  intro rest
  induction rest with
  | nil => intro els i b _; exact List.Perm.refl _
  | cons x rest2 ih =>
    intro els i b hin
    have hx : x < els.length := hin x (List.mem_cons_self x rest2)
    unfold moveOneLeftGo
    dsimp only
    split_ifs with hs
    · exact ih els (i + 1) _ fun y hy => hin y (List.mem_cons_of_mem x hy)
    · refine (ih _ (i + 1) _ fun y hy => ?_).trans
        (swap_perm els (x - 1) x (by omega) hx)
      rw [swap_length]
      exact hin y (List.mem_cons_of_mem x hy)

theorem moveOneRightGo_perm {α : Type} :
    ∀ (rest : List ℕ) (els : List α) (i : ℕ) (b : Bool),
      (∀ x ∈ rest, x < els.length) →
      List.Perm (moveOneRightGo els rest i b) els := by
  intro rest
  induction rest with
  | nil => intro els i b _; exact List.Perm.refl _
  | cons x rest2 ih =>
    intro els i b hin
    have hx : x < els.length := hin x (List.mem_cons_self x rest2)
    unfold moveOneRightGo
    dsimp only
    split_ifs with hs
    · exact ih els (i + 1) _ fun y hy => hin y (List.mem_cons_of_mem x hy)
    · have hperm : List.Perm (swap els (x + 1) x) els := by
        by_cases hx1 : x + 1 < els.length
        · exact swap_perm els (x + 1) x hx1 hx
        · rw [swap_eq_of_fst_none (List.getElem?_eq_none (le_of_not_lt hx1))]
      refine (ih _ (i + 1) _ fun y hy => ?_).trans hperm
      rw [swap_length]
      exact hin y (List.mem_cons_of_mem x hy)

theorem moveOneLeft_perm {α : Type} (els : List α) (I : List ℕ)
    (hin : ∀ x ∈ I, x < els.length) : List.Perm (moveOneLeft els I) els :=
  moveOneLeftGo_perm _ els 0 true fun x hx =>
    hin x ((List.perm_insertionSort (· ≤ ·) I).mem_iff.mp hx)

theorem moveOneRight_perm {α : Type} (els : List α) (I : List ℕ)
    (hin : ∀ x ∈ I, x < els.length) : List.Perm (moveOneRight els I) els :=
  moveOneRightGo_perm _ els 0 true fun x hx =>
    hin x ((List.perm_insertionSort (fun a b => b ≤ a) I).mem_iff.mp hx)

theorem insertionSort_asc_eq (I : List ℕ) (hI : List.Pairwise (· < ·) I) :
    List.insertionSort (· ≤ ·) I = I :=
  List.Sorted.insertionSort_eq (hI.imp le_of_lt)

theorem insertionSort_desc_eq_reverse (I : List ℕ) (hI : List.Pairwise (· < ·) I) :
    List.insertionSort (fun a b => b ≤ a) I = I.reverse := by
  refine List.eq_of_perm_of_sorted
    ((List.perm_insertionSort _ I).trans I.reverse_perm.symm)
    (List.sorted_insertionSort _ I) ?_
  rw [List.Sorted, List.pairwise_reverse]
  exact hI.imp fun h => le_of_lt h

theorem moveOneLeft_noskip {α : Type} (els : List α) (I : List ℕ)
    (hI : List.Pairwise (· < ·) I) (h0 : ∀ x ∈ I, 1 ≤ x) :
    moveOneLeft els I = I.foldl (fun a x => swap a (x - 1) x) els := by
  unfold moveOneLeft
  rw [insertionSort_asc_eq I hI]
  cases I with
  | nil => rfl
  | cons x rest =>
    unfold moveOneLeftGo
    dsimp only
    have hx : ¬((true && (x == 0)) = true) := by
      have := h0 x (List.mem_cons_self x rest)
      simp
      omega
    rw [if_neg hx, Bool.eq_false_iff.mpr hx, moveOneLeftGo_false]
    rfl

theorem moveOneRight_noskip {α : Type} (els : List α) (I : List ℕ)
    (hI : List.Pairwise (· < ·) I) (hlen : ∀ x ∈ I, x + 1 < els.length) :
    moveOneRight els I = I.reverse.foldl (fun a x => swap a (x + 1) x) els := by
  unfold moveOneRight
  rw [insertionSort_desc_eq_reverse I hI]
  cases hrev : I.reverse with
  | nil => rfl
  | cons x rest =>
    have hmem : x ∈ I := List.mem_reverse.mp (hrev ▸ List.mem_cons_self x rest)
    unfold moveOneRightGo
    dsimp only
    have hx : ¬((true && (x == els.length - 0 - 1)) = true) := by
      have := hlen x hmem
      simp
      omega
    rw [if_neg hx, Bool.eq_false_iff.mpr hx, moveOneRightGo_false]
    rfl

theorem swaps_inverse {α : Type} :
    ∀ (I : List ℕ) (els : List α),
      List.Pairwise (· < ·) I →
      (∀ x ∈ I, 1 ≤ x ∧ x < els.length) →
      List.foldr (fun x acc => swap acc (x - 1 + 1) (x - 1))
        (I.foldl (fun a x => swap a (x - 1) x) els) I = els := by
  intro I
  induction I with
  | nil => intro els _ _; rfl
  | cons x rest ih =>
    intro els hp hb
    obtain ⟨hx1, hxlen⟩ := hb x (List.mem_cons_self x rest)
    have hstep : List.foldr (fun x acc => swap acc (x - 1 + 1) (x - 1))
        (List.foldl (fun a x => swap a (x - 1) x) (swap els (x - 1) x) rest) rest =
        swap els (x - 1) x := by
      refine ih (swap els (x - 1) x) (List.pairwise_cons.mp hp).2 fun y hy => ?_
      obtain ⟨h1, h2⟩ := hb y (List.mem_cons_of_mem x hy)
      exact ⟨h1, by rwa [swap_length]⟩
    show List.foldr (fun x acc => swap acc (x - 1 + 1) (x - 1))
        (List.foldl (fun a x => swap a (x - 1) x) (swap els (x - 1) x) rest)
        (x :: rest) = els
    rw [List.foldr_cons, hstep, Nat.sub_add_cancel hx1, swap_comm,
      swap_swap (l := els) (a := x - 1) (b := x) (by omega) hxlen]

theorem moveOneLeft_spec {α : Type} (els : List α) (I : List ℕ)
    (hI : List.Pairwise (· < ·) I) (hin : ∀ x ∈ I, x < els.length)
    (t : ℕ) (ht : t < I.length) :
    ((∀ s, s ≤ t → I.getD s 0 = s) →
      (moveOneLeft els I)[I.getD t 0]? = els[I.getD t 0]?) ∧
    (¬(∀ s, s ≤ t → I.getD s 0 = s) →
      (moveOneLeft els I)[I.getD t 0 - 1]? = els[I.getD t 0]?) := by
  have h := moveOneLeftGo_spec I els 0 true hI hin (fun _ x hx => Nat.zero_le x)
    (fun hc => absurd hc (by simp)) t ht
  have hrw : moveOneLeft els I = moveOneLeftGo els I 0 true := by
    unfold moveOneLeft
    rw [insertionSort_asc_eq I hI]
  constructor
  · intro hc
    rw [hrw]
    exact h.1 ⟨rfl, fun s hs => by rw [hc s hs]; omega⟩
  · intro hc
    rw [hrw]
    refine h.2 fun h2 => hc fun s hs => ?_
    have := h2.2 s hs
    omega

theorem moveOne_inverse {α : Type} (els : List α) (I : List ℕ)
    (hI : List.Pairwise (· < ·) I)
    (hb : ∀ x ∈ I, 1 ≤ x ∧ x < els.length) :
    moveOneRight (moveOneLeft els I) (I.map (fun x => x - 1)) = els := by
  have h0 : ∀ x ∈ I, 1 ≤ x := fun x hx => (hb x hx).1
  have hin : ∀ x ∈ I, x < els.length := fun x hx => (hb x hx).2
  have hlen2 : (moveOneLeft els I).length = els.length :=
    (moveOneLeft_perm els I hin).length_eq
  have hmp : List.Pairwise (· < ·) (I.map (fun x => x - 1)) := by
    rw [List.pairwise_map]
    refine hI.imp_of_mem fun ha hb2 hlt => ?_
    have := h0 _ ha
    omega
  have hlen3 : ∀ y ∈ I.map (fun x => x - 1), y + 1 < (moveOneLeft els I).length := by
    intro y hy
    obtain ⟨x, hx, rfl⟩ := List.mem_map.mp hy
    rw [hlen2]
    have := hb x hx
    omega
  rw [moveOneRight_noskip _ _ hmp hlen3, moveOneLeft_noskip els I hI h0,
    ← List.map_reverse, List.foldl_map, List.foldl_reverse]
  exact swaps_inverse I els hI hb

/-! ## Helper lemmas about `moveAllLeft` and `moveAllRight` -/

theorem copyDown_length {α : Type} (i lo : ℕ) :
    ∀ (cnt : ℕ) (els : List α), (copyDown i lo cnt els).length = els.length := by
  intro cnt
  induction cnt with
  | zero => intro els; rfl
  | succ cnt ih =>
    intro els
    unfold copyDown
    cases h : els[lo + cnt]? with
    | none => exact ih els
    | some v => rw [ih (els.set (lo + cnt + i) v), List.length_set]

theorem copyDown_getElem? {α : Type} (i lo : ℕ) :
    ∀ (cnt : ℕ) (els : List α), lo + cnt + i ≤ els.length → ∀ (q : ℕ),
      (copyDown i lo cnt els)[q]? =
        if lo + i ≤ q ∧ q < lo + cnt + i then els[q - i]? else els[q]? := by
  intro cnt
  induction cnt with
  | zero =>
    intro els _ q
    rw [if_neg (by omega)]
    rfl
  | succ cnt ih =>
    intro els h q
    have hlt : lo + cnt < els.length := by omega
    have hsome : els[lo + cnt]? = some (els.get ⟨lo + cnt, hlt⟩) := by
      rw [List.getElem?_eq_getElem hlt]
      rfl
    have hstep : copyDown i lo (cnt + 1) els =
        copyDown i lo cnt (els.set (lo + cnt + i) (els.get ⟨lo + cnt, hlt⟩)) := by
      conv_lhs => unfold copyDown
      rw [hsome]
    rw [hstep, ih _ (by rw [List.length_set]; omega) q]
    by_cases hq1 : lo + i ≤ q ∧ q < lo + cnt + i
    · rw [if_pos hq1, if_pos (by omega),
        List.getElem?_set_ne (by omega)]
    · by_cases hq2 : q = lo + cnt + i
      · rw [if_neg hq1, if_pos (by omega), hq2,
          List.getElem?_set_self (by omega)]
        rw [show lo + cnt + i - i = lo + cnt from by omega,
          List.getElem?_eq_getElem hlt]
        rfl
      · rw [if_neg hq1, if_neg (by omega),
          List.getElem?_set_ne (fun hc => hq2 hc.symm)]

theorem markerPass_length {α : Type} :
    ∀ (ms : List ℕ) (els : List α) (prev i0 : ℕ),
      (markerPass els prev i0 ms).length = els.length := by
  intro ms
  induction ms with
  | nil => intro els prev i0; rfl
  | cons idx rest ih =>
    intro els prev i0
    show (markerPass (copyDown i0 idx (prev - idx) els) idx (i0 + 1) rest).length = _
    rw [ih, copyDown_length]

theorem copyDown_eq {α : Type} (i lo cnt : ℕ) (els : List α)
    (h : lo + cnt + i ≤ els.length) :
    copyDown i lo cnt els =
      els.take (lo + i) ++ ((els.drop lo).take cnt ++ els.drop (lo + cnt + i)) := by
  have hlenA : (els.take (lo + i)).length = lo + i := by
    rw [List.length_take]
    omega
  have hlenB : ((els.drop lo).take cnt).length = cnt := by
    rw [List.length_take, List.length_drop]
    omega
  apply List.ext_getElem?
  intro q
  rw [copyDown_getElem? i lo cnt els h q]
  by_cases h1 : q < lo + i
  · rw [if_neg (by omega), List.getElem?_append_left (by omega),
      List.getElem?_take_of_lt h1]
  · rw [List.getElem?_append_right (by omega), hlenA]
    by_cases h2 : q < lo + cnt + i
    · rw [if_pos (by omega), List.getElem?_append_left (by omega),
        List.getElem?_take_of_lt (by omega), List.getElem?_drop]
      congr 1
      omega
    · rw [if_neg (by omega), List.getElem?_append_right (by omega), hlenB,
        List.getElem?_drop]
      congr 1
      omega

theorem markerPass_spec {α : Type} :
    ∀ (ms : List ℕ) (els : List α) (prev i0 : ℕ),
      List.Pairwise (· > ·) (prev :: ms) →
      prev + i0 ≤ els.length →
      (markerPass els prev i0 (ms ++ [0])).drop (i0 + ms.length) =
        dropPosDesc (els.take prev) ms ++ els.drop (prev + i0) := by
  intro ms
  induction ms with
  | nil =>
    intro els prev i0 _ h
    have hstep : markerPass els prev i0 ([] ++ [0]) =
        copyDown i0 0 prev els := rfl
    rw [hstep, copyDown_eq i0 0 prev els (by omega)]
    simp only [List.length_nil, Nat.add_zero, Nat.zero_add, List.drop_zero]
    have hlen : (els.take i0).length = i0 := by
      rw [List.length_take]
      omega
    rw [List.drop_append_eq_append_drop,
      List.drop_eq_nil_of_le (by rw [hlen]), hlen, Nat.sub_self,
      List.drop_zero, List.nil_append]
    rfl
  | cons idx rest ih =>
    intro els prev i0 hp h
    obtain ⟨hgt, hp2⟩ := List.pairwise_cons.mp hp
    have hidx : idx < prev := hgt idx (List.mem_cons_self idx rest)
    have hstep : markerPass els prev i0 ((idx :: rest) ++ [0]) =
        markerPass (copyDown i0 idx (prev - idx) els) idx (i0 + 1) (rest ++ [0]) := rfl
    have hlen2 : idx + (i0 + 1) ≤ (copyDown i0 idx (prev - idx) els).length := by
      rw [copyDown_length]
      omega
    have hIH := ih (copyDown i0 idx (prev - idx) els) idx (i0 + 1) hp2 hlen2
    rw [hstep,
      show i0 + ((idx :: rest) : List ℕ).length = (i0 + 1) + rest.length from by
        rw [List.length_cons]; omega,
      hIH, copyDown_eq i0 idx (prev - idx) els (by omega)]
    have hA : (els.take (idx + i0)).length = idx + i0 := by
      rw [List.length_take]
      omega
    have hB : ((els.drop idx).take (prev - idx)).length = prev - idx := by
      rw [List.length_take, List.length_drop]
      omega
    rw [List.take_append_of_le_length (by rw [hA]; omega), List.take_take,
      show min idx (idx + i0) = idx from by omega,
      List.drop_append_eq_append_drop,
      List.drop_eq_nil_of_le (by rw [hA]; omega), hA,
      show idx + (i0 + 1) - (idx + i0) = 1 from by omega,
      List.drop_append_of_le_length (by rw [hB]; omega),
      List.drop_take, List.drop_drop, List.nil_append]
    rw [show dropPosDesc (els.take prev) (idx :: rest) =
        dropPosDesc ((els.take prev).take idx) rest ++ (els.take prev).drop (idx + 1)
        from rfl,
      List.take_take, show min idx prev = idx from by omega,
      List.drop_take,
      show idx + (prev - idx) + i0 = prev + i0 from by omega,
      show prev - idx - 1 = prev - (idx + 1) from by omega,
      List.append_assoc]

theorem le_getD_of_sorted :
    ∀ (I : List ℕ) (m : ℕ), List.Pairwise (· < ·) I →
      (∀ x ∈ I, m ≤ x) → ∀ j, j < I.length → m + j ≤ I.getD j 0 := by
  intro I
  induction I with
  | nil => intro m _ _ j hj; simp at hj
  | cons x rest ih =>
    intro m hp hm j hj
    obtain ⟨hx2, hp2⟩ := List.pairwise_cons.mp hp
    cases j with
    | zero => simpa using hm x (List.mem_cons_self x rest)
    | succ j2 =>
      have hx : m ≤ x := hm x (List.mem_cons_self x rest)
      have := ih (m + 1) hp2
        (fun y hy => Nat.succ_le_of_lt (lt_of_le_of_lt hx (hx2 y hy)))
        j2 (by simpa using hj)
      rw [List.getD_cons_succ]
      omega

theorem length_le_of_sorted_lt (I : List ℕ) (n : ℕ)
    (hI : List.Pairwise (· < ·) I) (hin : ∀ x ∈ I, x < n) : I.length ≤ n := by
  rcases Nat.eq_zero_or_pos I.length with h0 | hpos
  · omega
  · have hj : I.length - 1 < I.length := by omega
    have h1 := le_getD_of_sorted I 0 hI (fun x _ => Nat.zero_le x) (I.length - 1) hj
    have hmem : I.getD (I.length - 1) 0 ∈ I := by
      rw [List.getD_eq_getElem _ _ hj]
      exact List.getElem_mem hj
    have := hin _ hmem
    omega

theorem writePrefix_getElem? {α : Type} :
    ∀ (vs els : List α) (i : ℕ), i + vs.length ≤ els.length → ∀ (q : ℕ),
      (writePrefix els i vs)[q]? =
        if i ≤ q ∧ q < i + vs.length then vs[q - i]? else els[q]? := by
  intro vs
  induction vs with
  | nil =>
    intro els i _ q
    rw [if_neg (by simp only [List.length_nil, Nat.add_zero]; omega)]
    rfl
  | cons v vs ih =>
    intro els i h q
    rw [List.length_cons] at h
    have hstep : writePrefix els i (v :: vs) = writePrefix (els.set i v) (i + 1) vs := rfl
    rw [hstep, ih (els.set i v) (i + 1) (by rw [List.length_set]; omega) q]
    simp only [List.length_cons]
    by_cases h1 : i + 1 ≤ q ∧ q < i + 1 + vs.length
    · rw [if_pos h1, if_pos (by omega),
        show q - i = (q - (i + 1)) + 1 from by omega, List.getElem?_cons_succ]
    · by_cases h2 : q = i
      · rw [if_neg h1, if_pos (by omega), h2, List.getElem?_set_self (by omega),
          show i - i = 0 from by omega, List.getElem?_cons_zero]
      · rw [if_neg h1, List.getElem?_set_ne (fun hc => h2 hc.symm), if_neg (by omega)]

theorem writePrefix_eq {α : Type} (els vs : List α) (h : vs.length ≤ els.length) :
    writePrefix els 0 vs = vs ++ els.drop vs.length := by
  apply List.ext_getElem?
  intro q
  rw [writePrefix_getElem? vs els 0 (by omega) q]
  by_cases h1 : q < vs.length
  · rw [if_pos (by omega), List.getElem?_append_left h1, Nat.sub_zero]
  · rw [if_neg (by omega), List.getElem?_append_right (by omega), List.getElem?_drop]
    congr 1
    omega

theorem moveAllLeft_eq {α : Type} [Inhabited α] (els : List α) (I : List ℕ)
    (hI : List.Pairwise (· < ·) I) (hin : ∀ x ∈ I, x < els.length) :
    moveAllLeft els I = I.map (fun i => els.getD i default) ++ dropPosDesc els I.reverse := by
  cases hrev : I.reverse with
  | nil =>
    have hInil : I = [] := by
      have := congrArg List.reverse hrev
      simpa using this
    subst hInil
    rfl
  | cons m1 ms =>
    have hIsort : List.insertionSort (· ≤ ·) I = I := insertionSort_asc_eq I hI
    have hm1 : m1 ∈ I := List.mem_reverse.mp (hrev ▸ List.mem_cons_self m1 ms)
    have hm1n : m1 < els.length := hin m1 hm1
    have hpws : List.Pairwise (· > ·) (m1 :: ms) := by
      rw [← hrev, List.pairwise_reverse]
      exact hI
    have hk : I.length ≤ els.length := length_le_of_sorted_lt I els.length hI hin
    have hbody : moveAllLeft els I =
        writePrefix (markerPass els m1 1 (ms ++ [0])) 0
          (I.map fun idx => els.getD idx default) := by
      simp only [moveAllLeft, hIsort, hrev, List.cons_append]
    rw [hbody]
    rw [writePrefix_eq _ _ (by rw [List.length_map, markerPass_length]; exact hk)]
    congr 1
    rw [List.length_map,
      show I.length = 1 + ms.length from by
        have := congrArg List.length hrev
        simp at this
        omega,
      markerPass_spec ms els m1 1 hpws (by omega)]
    rfl

theorem dropPosDesc_perm {α : Type} [Inhabited α] :
    ∀ (ds : List ℕ) (els : List α),
      List.Pairwise (· > ·) ds → (∀ x ∈ ds, x < els.length) →
      List.Perm (ds.map (fun idx => els.getD idx default) ++ dropPosDesc els ds) els := by
  intro ds
  induction ds with
  | nil =>
    intro els _ _
    show List.Perm ([] ++ els) els
    rw [List.nil_append]
  | cons idx rest ih =>
    intro els hp hin
    obtain ⟨hgt, hp2⟩ := List.pairwise_cons.mp hp
    have hidxn : idx < els.length := hin idx (List.mem_cons_self idx rest)
    have hIH := ih (els.take idx) hp2 (fun y hy => by
      rw [List.length_take]
      have := hgt y hy
      omega)
    have hmap : rest.map (fun j => (els.take idx).getD j default) =
        rest.map (fun j => els.getD j default) := by
      apply List.map_congr_left
      intro y hy
      have hylt : y < idx := hgt y hy
      rw [List.getD_eq_getElem?_getD, List.getD_eq_getElem?_getD,
        List.getElem?_take_of_lt hylt]
    have h2 : List.Perm
        ((rest.map (fun j => els.getD j default) ++ dropPosDesc (els.take idx) rest)
          ++ els.drop (idx + 1))
        (els.take idx ++ els.drop (idx + 1)) := by
      refine List.Perm.append_right _ ?_
      rw [← hmap]
      exact hIH
    show List.Perm ((els.getD idx default :: rest.map (fun j => els.getD j default)) ++
        (dropPosDesc (els.take idx) rest ++ els.drop (idx + 1))) els
    rw [List.cons_append, ← List.append_assoc, List.getD_eq_getElem els default hidxn]
    refine List.Perm.trans (List.Perm.cons _ h2) ?_
    refine List.Perm.trans List.perm_middle.symm ?_
    rw [← List.drop_eq_getElem_cons hidxn, List.take_append_drop]

theorem moveAllLeft_sort_eq {α : Type} [Inhabited α] (els : List α) (I : List ℕ) :
    moveAllLeft els I = moveAllLeft els (List.insertionSort (· ≤ ·) I) := by
  unfold moveAllLeft
  rw [List.Sorted.insertionSort_eq (List.sorted_insertionSort _ I)]

theorem moveAllLeft_perm {α : Type} [Inhabited α] (els : List α) (I : List ℕ)
    (hnd : I.Nodup) (hin : ∀ x ∈ I, x < els.length) :
    List.Perm (moveAllLeft els I) els := by
  have hperm : List.Perm (List.insertionSort (· ≤ ·) I) I :=
    List.perm_insertionSort _ I
  have hndJ : (List.insertionSort (· ≤ ·) I).Nodup := hperm.nodup_iff.mpr hnd
  have hsortJ : List.Sorted (· ≤ ·) (List.insertionSort (· ≤ ·) I) :=
    List.sorted_insertionSort _ I
  have hltJ : List.Pairwise (· < ·) (List.insertionSort (· ≤ ·) I) :=
    (hsortJ.and hndJ).imp fun h => lt_of_le_of_ne h.1 h.2
  have hinJ : ∀ x ∈ List.insertionSort (· ≤ ·) I, x < els.length :=
    fun x hx => hin x (hperm.mem_iff.mp hx)
  rw [moveAllLeft_sort_eq els I, moveAllLeft_eq els _ hltJ hinJ]
  have hrevp : List.Pairwise (· > ·) (List.insertionSort (· ≤ ·) I).reverse := by
    rw [List.pairwise_reverse]
    exact hltJ
  have hinrev : ∀ x ∈ (List.insertionSort (· ≤ ·) I).reverse, x < els.length :=
    fun x hx => hinJ x (List.mem_reverse.mp hx)
  have hmain := dropPosDesc_perm _ els hrevp hinrev
  refine List.Perm.trans
    (List.Perm.append_right _
      ((List.reverse_perm (List.insertionSort (· ≤ ·) I)).map _).symm) hmain

theorem copyUp_length {α : Type} (i : ℕ) :
    ∀ (cnt lo : ℕ) (els : List α), (copyUp i lo cnt els).length = els.length := by
  intro cnt
  induction cnt with
  | zero => intro lo els; rfl
  | succ cnt ih =>
    intro lo els
    unfold copyUp
    cases h : els[lo]? with
    | none => exact ih (lo + 1) els
    | some v => rw [ih (lo + 1) (els.set (lo - i) v), List.length_set]

theorem copyUp_getElem? {α : Type} (i : ℕ) :
    ∀ (cnt lo : ℕ) (els : List α), i ≤ lo → lo + cnt ≤ els.length → ∀ (q : ℕ),
      (copyUp i lo cnt els)[q]? =
        if lo - i ≤ q ∧ q < lo + cnt - i then els[q + i]? else els[q]? := by
  intro cnt
  induction cnt with
  | zero =>
    intro lo els _ _ q
    rw [if_neg (by omega)]
    rfl
  | succ cnt ih =>
    intro lo els hi h q
    have hlt : lo < els.length := by omega
    have hsome : els[lo]? = some (els.get ⟨lo, hlt⟩) := by
      rw [List.getElem?_eq_getElem hlt]
      rfl
    have hstep : copyUp i lo (cnt + 1) els =
        copyUp i (lo + 1) cnt (els.set (lo - i) (els.get ⟨lo, hlt⟩)) := by
      conv_lhs => unfold copyUp
      rw [hsome]
    rw [hstep, ih (lo + 1) _ (by omega) (by rw [List.length_set]; omega) q]
    by_cases hq1 : lo + 1 - i ≤ q ∧ q < lo + 1 + cnt - i
    · rw [if_pos hq1, if_pos (by omega), List.getElem?_set_ne (by omega)]
    · by_cases hq2 : q = lo - i
      · rw [if_neg hq1, if_pos (by omega), hq2,
          List.getElem?_set_self (by omega),
          show lo - i + i = lo from by omega, List.getElem?_eq_getElem hlt]
        rfl
      · rw [if_neg hq1, if_neg (by omega),
          List.getElem?_set_ne (fun hc => hq2 hc.symm)]

theorem copyUp_eq {α : Type} (i lo cnt : ℕ) (els : List α)
    (hi : i ≤ lo) (h : lo + cnt ≤ els.length) :
    copyUp i lo cnt els =
      els.take (lo - i) ++ ((els.drop lo).take cnt ++ els.drop (lo + cnt - i)) := by
  have hlenA : (els.take (lo - i)).length = lo - i := by
    rw [List.length_take]
    omega
  have hlenB : ((els.drop lo).take cnt).length = cnt := by
    rw [List.length_take, List.length_drop]
    omega
  apply List.ext_getElem?
  intro q
  rw [copyUp_getElem? i cnt lo els hi h q]
  by_cases h1 : q < lo - i
  · rw [if_neg (by omega), List.getElem?_append_left (by omega),
      List.getElem?_take_of_lt h1]
  · rw [List.getElem?_append_right (by omega), hlenA]
    by_cases h2 : q < lo + cnt - i
    · rw [if_pos (by omega), List.getElem?_append_left (by omega),
        List.getElem?_take_of_lt (by omega), List.getElem?_drop]
      congr 1
      omega
    · rw [if_neg (by omega), List.getElem?_append_right (by omega), hlenB,
        List.getElem?_drop]
      congr 1
      omega

theorem markerPassR_length {α : Type} :
    ∀ (ms : List ℕ) (els : List α) (prev i0 : ℕ),
      (markerPassR els prev i0 ms).length = els.length := by
  intro ms
  induction ms with
  | nil => intro els prev i0; rfl
  | cons idx rest ih =>
    intro els prev i0
    show (markerPassR (copyUp i0 (prev + 1) (idx - prev - 1) els) idx (i0 + 1)
        rest).length = _
    rw [ih, copyUp_length]

theorem gapsAsc_congr {α : Type} :
    ∀ (ms : List ℕ) (prev : ℕ) (l1 l2 : List α),
      List.Pairwise (· < ·) (prev :: ms) →
      l1.drop (prev + 1) = l2.drop (prev + 1) →
      gapsAsc l1 prev ms = gapsAsc l2 prev ms := by
  intro ms
  induction ms with
  | nil => intro prev l1 l2 _ h; exact h
  | cons idx rest ih =>
    intro prev l1 l2 hp h
    obtain ⟨hlt, hp2⟩ := List.pairwise_cons.mp hp
    have hprev : prev < idx := hlt idx (List.mem_cons_self idx rest)
    have hdrop : l1.drop (idx + 1) = l2.drop (idx + 1) := by
      have h1 := congrArg (List.drop (idx - prev)) h
      rwa [List.drop_drop, List.drop_drop,
        show prev + 1 + (idx - prev) = idx + 1 from by omega] at h1
    show (l1.drop (prev + 1)).take (idx - prev - 1) ++ gapsAsc l1 idx rest =
      (l2.drop (prev + 1)).take (idx - prev - 1) ++ gapsAsc l2 idx rest
    rw [h, ih idx l1 l2 hp2 hdrop]

theorem take_append_take_drop {α : Type} (A B C : List α) (k : ℕ)
    (h : A.length + B.length = k) : (A ++ (B ++ C)).take k = A ++ B := by
  rw [← List.append_assoc]
  exact List.take_left' (by rw [List.length_append, h])

theorem drop_append_all {α : Type} (A B : List α) (k : ℕ) (h : A.length ≤ k) :
    (A ++ B).drop k = B.drop (k - A.length) := by
  rw [List.drop_append_eq_append_drop, List.drop_eq_nil_of_le h, List.nil_append]

theorem markerPassR_spec {α : Type} :
    ∀ (ms : List ℕ) (els : List α) (prev i0 : ℕ),
      List.Pairwise (· < ·) (prev :: ms) →
      (∀ x ∈ ms, x < els.length) →
      prev < els.length →
      i0 ≤ prev + 1 →
      (markerPassR els prev i0 (ms ++ [els.length])).take
          (els.length - i0 - ms.length) =
        els.take (prev + 1 - i0) ++ gapsAsc els prev ms := by
  intro ms
  induction ms with
  | nil =>
    intro els prev i0 _ _ hprev hi0
    have hstep : markerPassR els prev i0 ([] ++ [els.length]) =
        copyUp i0 (prev + 1) (els.length - prev - 1) els := rfl
    rw [hstep, copyUp_eq i0 (prev + 1) (els.length - prev - 1) els (by omega) (by omega)]
    simp only [List.length_nil, Nat.sub_zero]
    have hlenA : (els.take (prev + 1 - i0)).length = prev + 1 - i0 := by
      rw [List.length_take]
      omega
    have hlenB : ((els.drop (prev + 1)).take (els.length - prev - 1)).length =
        els.length - prev - 1 := by
      rw [List.length_take, List.length_drop]
      omega
    rw [take_append_take_drop _ _ _ _ (by rw [hlenA, hlenB]; omega)]
    congr 1
    exact List.take_of_length_le (by rw [List.length_drop]; omega)
  | cons idx rest ih =>
    intro els prev i0 hp hin hprev hi0
    obtain ⟨hlt, hp2⟩ := List.pairwise_cons.mp hp
    have hidx : prev < idx := hlt idx (List.mem_cons_self idx rest)
    have hidxn : idx < els.length := hin idx (List.mem_cons_self idx rest)
    have hstep : markerPassR els prev i0 ((idx :: rest) ++ [els.length]) =
        markerPassR (copyUp i0 (prev + 1) (idx - prev - 1) els) idx (i0 + 1)
          (rest ++ [els.length]) := rfl
    have hculen : (copyUp i0 (prev + 1) (idx - prev - 1) els).length = els.length :=
      copyUp_length i0 (idx - prev - 1) (prev + 1) els
    have hIH := ih (copyUp i0 (prev + 1) (idx - prev - 1) els) idx (i0 + 1) hp2
      (fun y hy => by rw [hculen]; exact hin y (List.mem_cons_of_mem idx hy))
      (by rw [hculen]; exact hidxn) (by omega)
    rw [hculen] at hIH
    rw [hstep,
      show els.length - i0 - ((idx :: rest) : List ℕ).length =
          els.length - (i0 + 1) - rest.length from by
        rw [List.length_cons]; omega,
      hIH, copyUp_eq i0 (prev + 1) (idx - prev - 1) els (by omega) (by omega)]
    have hlenA : (els.take (prev + 1 - i0)).length = prev + 1 - i0 := by
      rw [List.length_take]
      omega
    have hlenB : ((els.drop (prev + 1)).take (idx - prev - 1)).length =
        idx - prev - 1 := by
      rw [List.length_take, List.length_drop]
      omega
    have hdropeq : (els.take (prev + 1 - i0) ++ ((els.drop (prev + 1)).take (idx - prev - 1) ++
        els.drop (prev + 1 + (idx - prev - 1) - i0))).drop (idx + 1) =
        els.drop (idx + 1) := by
      rw [drop_append_all _ _ _ (by rw [hlenA]; omega), hlenA,
        drop_append_all _ _ _ (by rw [hlenB]; omega), hlenB,
        List.drop_drop]
      congr 1
      omega
    rw [take_append_take_drop _ _ _ _ (by rw [hlenA, hlenB]; omega),
      gapsAsc_congr rest idx _ els hp2 hdropeq]
    show (els.take (prev + 1 - i0) ++ (els.drop (prev + 1)).take (idx - prev - 1)) ++
        gapsAsc els idx rest =
      els.take (prev + 1 - i0) ++
        ((els.drop (prev + 1)).take (idx - prev - 1) ++ gapsAsc els idx rest)
    rw [List.append_assoc]

theorem writeFromEnd_getElem? {α : Type} :
    ∀ (vs els : List α) (i : ℕ), i + vs.length ≤ els.length → ∀ (q : ℕ),
      (writeFromEnd els i vs)[q]? =
        if els.length - i - vs.length ≤ q ∧ q < els.length - i then
          vs[els.length - 1 - i - q]?
        else els[q]? := by
  intro vs
  induction vs with
  | nil =>
    intro els i _ q
    rw [if_neg (by simp only [List.length_nil, Nat.sub_zero]; omega)]
    rfl
  | cons v vs ih =>
    intro els i h q
    rw [List.length_cons] at h
    have hstep : writeFromEnd els i (v :: vs) =
        writeFromEnd (els.set (els.length - 1 - i) v) (i + 1) vs := rfl
    rw [hstep, ih (els.set (els.length - 1 - i) v) (i + 1)
      (by rw [List.length_set]; omega) q]
    simp only [List.length_set, List.length_cons]
    by_cases h1 : els.length - (i + 1) - vs.length ≤ q ∧ q < els.length - (i + 1)
    · rw [if_pos h1, if_pos (by omega),
        show els.length - 1 - i - q = (els.length - 1 - (i + 1) - q) + 1 from by omega,
        List.getElem?_cons_succ]
    · by_cases h2 : q = els.length - 1 - i
      · rw [if_neg h1, if_pos (by omega), h2, List.getElem?_set_self (by omega),
          show els.length - 1 - i - (els.length - 1 - i) = 0 from by omega,
          List.getElem?_cons_zero]
      · rw [if_neg h1, List.getElem?_set_ne (fun hc => h2 hc.symm), if_neg (by omega)]

theorem writeFromEnd_eq {α : Type} (els vs : List α) (h : vs.length ≤ els.length) :
    writeFromEnd els 0 vs = els.take (els.length - vs.length) ++ vs.reverse := by
  have hlenA : (els.take (els.length - vs.length)).length = els.length - vs.length := by
    rw [List.length_take]
    omega
  apply List.ext_getElem?
  intro q
  rw [writeFromEnd_getElem? vs els 0 (by omega) q]
  simp only [Nat.sub_zero]
  by_cases h1 : q < els.length - vs.length
  · rw [if_neg (by omega), List.getElem?_append_left (by rw [hlenA]; omega),
      List.getElem?_take_of_lt h1]
  · by_cases h2 : q < els.length
    · rw [if_pos (by omega), List.getElem?_append_right (by rw [hlenA]; omega), hlenA,
        List.getElem?_reverse (by omega)]
      congr 1
      omega
    · rw [if_neg (by omega), List.getElem?_eq_none (by omega),
        List.getElem?_eq_none
          (by rw [List.length_append, hlenA, List.length_reverse]; omega)]

theorem moveAllRight_eq {α : Type} [Inhabited α] (els : List α) (m1 : ℕ) (ms : List ℕ)
    (hI : List.Pairwise (· < ·) (m1 :: ms))
    (hin : ∀ x ∈ m1 :: ms, x < els.length) :
    moveAllRight els (m1 :: ms) =
      (els.take m1 ++ gapsAsc els m1 ms) ++
        (m1 :: ms).map (fun i => els.getD i default) := by
  have hdesc : List.insertionSort (fun a b => b ≤ a) (m1 :: ms) = (m1 :: ms).reverse :=
    insertionSort_desc_eq_reverse (m1 :: ms) hI
  have hm1n : m1 < els.length := hin m1 (List.mem_cons_self m1 ms)
  have hk : ((m1 :: ms) : List ℕ).length ≤ els.length :=
    length_le_of_sorted_lt _ els.length hI hin
  have hbody : moveAllRight els (m1 :: ms) =
      writeFromEnd (markerPassR els m1 1 (ms ++ [els.length])) 0
        ((m1 :: ms).reverse.map fun idx => els.getD idx default) := by
    simp only [moveAllRight, hdesc, List.reverse_reverse, List.cons_append]
  rw [hbody,
    writeFromEnd_eq _ _
      (by rw [markerPassR_length, List.length_map, List.length_reverse]; exact hk),
    markerPassR_length, List.length_map, List.length_reverse,
    List.map_reverse, List.reverse_reverse,
    show els.length - ((m1 :: ms) : List ℕ).length = els.length - 1 - ms.length from by
      rw [List.length_cons]; omega,
    markerPassR_spec ms els m1 1 hI (fun y hy => hin y (List.mem_cons_of_mem m1 hy))
      hm1n (by omega),
    show m1 + 1 - 1 = m1 from by omega]

theorem gapsAsc_perm {α : Type} [Inhabited α] :
    ∀ (ms : List ℕ) (els : List α) (prev : ℕ),
      List.Pairwise (· < ·) (prev :: ms) →
      (∀ x ∈ ms, x < els.length) →
      List.Perm (gapsAsc els prev ms ++ ms.map (fun i => els.getD i default))
        (els.drop (prev + 1)) := by
  intro ms
  induction ms with
  | nil =>
    intro els prev _ _
    show List.Perm (els.drop (prev + 1) ++ []) _
    rw [List.append_nil]
  | cons idx rest ih =>
    intro els prev hp hin
    obtain ⟨hlt, hp2⟩ := List.pairwise_cons.mp hp
    have hprev : prev < idx := hlt idx (List.mem_cons_self idx rest)
    have hidxn : idx < els.length := hin idx (List.mem_cons_self idx rest)
    have hIH := ih els idx hp2 (fun y hy => hin y (List.mem_cons_of_mem idx hy))
    show List.Perm (((els.drop (prev + 1)).take (idx - prev - 1) ++ gapsAsc els idx rest)
        ++ (els.getD idx default :: rest.map (fun i => els.getD i default)))
      (els.drop (prev + 1))
    rw [List.getD_eq_getElem els default hidxn, List.append_assoc]
    have hmid : List.Perm
        (gapsAsc els idx rest ++ els[idx] :: rest.map (fun i => els.getD i default))
        (els[idx] :: els.drop (idx + 1)) :=
      List.Perm.trans List.perm_middle (List.Perm.cons _ hIH)
    refine List.Perm.trans (List.Perm.append_left _ hmid) ?_
    rw [← List.drop_eq_getElem_cons hidxn]
    have hseg : (els.drop (prev + 1)).take (idx - prev - 1) ++ els.drop idx =
        els.drop (prev + 1) := by
      have h1 := List.take_append_drop (idx - prev - 1) (els.drop (prev + 1))
      rwa [List.drop_drop, show prev + 1 + (idx - prev - 1) = idx from by omega] at h1
    rw [hseg]

theorem moveAllRight_sort_eq {α : Type} [Inhabited α] (els : List α) (I J : List ℕ)
    (h : List.insertionSort (fun a b => b ≤ a) I =
      List.insertionSort (fun a b => b ≤ a) J) :
    moveAllRight els I = moveAllRight els J := by
  unfold moveAllRight
  rw [h]

theorem moveAllRight_perm {α : Type} [Inhabited α] (els : List α) (I : List ℕ)
    (hnd : I.Nodup) (hin : ∀ x ∈ I, x < els.length) :
    List.Perm (moveAllRight els I) els := by
  have hpermJ : List.Perm (List.insertionSort (· ≤ ·) I) I := List.perm_insertionSort _ I
  have hndJ : (List.insertionSort (· ≤ ·) I).Nodup := hpermJ.nodup_iff.mpr hnd
  have hltJ : List.Pairwise (· < ·) (List.insertionSort (· ≤ ·) I) :=
    ((List.sorted_insertionSort _ I).and hndJ).imp fun h => lt_of_le_of_ne h.1 h.2
  have hinJ : ∀ x ∈ List.insertionSort (· ≤ ·) I, x < els.length :=
    fun x hx => hin x (hpermJ.mem_iff.mp hx)
  have hsorteq : List.insertionSort (fun a b => b ≤ a) I =
      List.insertionSort (fun a b => b ≤ a) (List.insertionSort (· ≤ ·) I) := by
    refine List.eq_of_perm_of_sorted
      ((List.perm_insertionSort _ I).trans
        ((List.perm_insertionSort _ _).trans hpermJ).symm)
      (List.sorted_insertionSort _ I) (List.sorted_insertionSort _ _)
  rw [moveAllRight_sort_eq els I _ hsorteq]
  cases hJ : List.insertionSort (· ≤ ·) I with
  | nil => exact List.Perm.refl els
  | cons m1 ms =>
    rw [hJ] at hltJ hinJ
    rw [moveAllRight_eq els m1 ms hltJ hinJ]
    have hg := gapsAsc_perm ms els m1 hltJ
      (fun y hy => hinJ y (List.mem_cons_of_mem m1 hy))
    have hm1n : m1 < els.length := hinJ m1 (List.mem_cons_self m1 ms)
    show List.Perm ((els.take m1 ++ gapsAsc els m1 ms) ++
        (els.getD m1 default :: ms.map (fun i => els.getD i default))) els
    rw [List.getD_eq_getElem els default hm1n, List.append_assoc]
    have hmid : List.Perm
        (gapsAsc els m1 ms ++ els[m1] :: ms.map (fun i => els.getD i default))
        (els[m1] :: els.drop (m1 + 1)) :=
      List.Perm.trans List.perm_middle (List.Perm.cons _ hg)
    refine List.Perm.trans (List.Perm.append_left _ hmid) ?_
    rw [← List.drop_eq_getElem_cons hm1n, List.take_append_drop]

/-- The position a point of `ps` would occupy after sorting by `key`, assuming
distinct keys: the number of points with a strictly smaller key. -/
def sortedPos (key : ℚ × ℚ → ℚ) (ps : List (ℚ × ℚ)) (j : ℕ) : ℕ :=
  (ps.filter fun p => key p < key (ps.getD j default)).length

theorem sortedPos_lt_length {key : ℚ × ℚ → ℚ} {ps : List (ℚ × ℚ)} {j : ℕ}
    (hj : j < ps.length) : sortedPos key ps j < ps.length := by
  unfold sortedPos
  refine lt_of_le_of_ne (List.length_filter_le _ _) fun heq => ?_
  have hall := List.filter_length_eq_length.mp heq (ps.getD j default)
    (by rw [List.getD_eq_getElem _ _ hj]; exact List.getElem_mem hj)
  simp only [decide_eq_true_eq] at hall
  exact lt_irrefl _ hall

theorem sortedPos_mono {key : ℚ × ℚ → ℚ} {ps : List (ℚ × ℚ)} {j k : ℕ}
    (hjk : key (ps.getD j default) ≤ key (ps.getD k default)) :
    sortedPos key ps j ≤ sortedPos key ps k := by
  unfold sortedPos
  rw [← List.countP_eq_length_filter, ← List.countP_eq_length_filter]
  refine List.countP_mono_left fun p _ hp => ?_
  simp only [decide_eq_true_eq] at hp ⊢
  exact lt_of_lt_of_le hp hjk

theorem sortedPos_eq_zero {key : ℚ × ℚ → ℚ} {ps : List (ℚ × ℚ)} {j : ℕ}
    (hmin : ∀ k, k < ps.length → key (ps.getD j default) ≤ key (ps.getD k default)) :
    sortedPos key ps j = 0 := by
  unfold sortedPos
  rw [List.length_eq_zero, List.filter_eq_nil_iff]
  intro p hp
  obtain ⟨k, hk, he⟩ := List.mem_iff_getElem.mp hp
  simp only [decide_eq_true_eq]
  have := hmin k hk
  rw [List.getD_eq_getElem _ _ hk, he] at this
  exact not_lt.mpr this

theorem sortedPos_eq_of_max {key : ℚ × ℚ → ℚ} {ps : List (ℚ × ℚ)} {j : ℕ}
    (hj : j < ps.length) (hnd : (ps.map key).Nodup)
    (hmax : ∀ k, k < ps.length → key (ps.getD k default) ≤ key (ps.getD j default)) :
    sortedPos key ps j = ps.length - 1 := by
  have hcnt1 : List.countP (fun p => key p = key (ps.getD j default)) ps = 1 := by
    have hmem : key (ps.getD j default) ∈ ps.map key := by
      rw [List.getD_eq_getElem _ _ hj]
      exact List.mem_map_of_mem key (List.getElem_mem hj)
    have hcount := List.count_eq_one_of_mem hnd hmem
    rw [List.count_eq_countP, List.countP_map] at hcount
    rw [← hcount]
    refine List.countP_congr fun p _ => ?_
    simp [Function.comp, beq_iff_eq]
  have hsplit := List.length_eq_countP_add_countP
    (p := fun p => decide (key p < key (ps.getD j default))) ps
  have hnotc : List.countP
      (fun p => ¬ (decide (key p < key (ps.getD j default)))) ps =
      List.countP (fun p => key p = key (ps.getD j default)) ps := by
    refine List.countP_congr fun p hp => ?_
    obtain ⟨k, hk, he⟩ := List.mem_iff_getElem.mp hp
    have hle := hmax k hk
    rw [List.getD_eq_getElem _ _ hk, he] at hle
    simp only [decide_eq_true_eq, Bool.not_eq_true, decide_eq_false_iff_not]
    constructor
    · intro h2
      exact le_antisymm hle (not_lt.mp h2)
    · intro h2
      rw [h2]
      exact lt_irrefl _
  unfold sortedPos
  rw [← List.countP_eq_length_filter]
  rw [hnotc, hcnt1] at hsplit
  omega

/-- With pairwise-distinct keys, the stable sort rank used by the resize code
is exactly the number of points with a smaller key (the sorted position). -/
theorem stableRank_eq_sortedPos {key : ℚ × ℚ → ℚ} {ps : List (ℚ × ℚ)} {j : ℕ}
    (hj : j < ps.length) (hnd : (ps.map key).Nodup) :
    stableRank key ps j = sortedPos key ps j := by
  unfold stableRank sortedPos
  have hcongr : (ps.enum.filter fun q =>
      key q.2 < key (ps.getD j default) ∨
        (key q.2 = key (ps.getD j default) ∧ q.1 < j)) =
      ps.enum.filter fun q => key q.2 < key (ps.getD j default) := by
    refine List.filter_congr fun q hq => ?_
    obtain ⟨i, hi, he⟩ := List.mem_iff_getElem.mp hq
    rw [List.getElem_enum] at he
    refine decide_eq_decide.mpr ?_
    subst he
    have hi2 : i < ps.length := by simpa using hi
    constructor
    · rintro (h1 | ⟨h2, h3⟩)
      · exact h1
      · exfalso
        have h2a : key ps[i] = key (ps.getD j default) := h2
        have h3a : i < j := h3
        have hkey : (ps.map key)[i]? = (ps.map key)[j]? := by
          rw [List.getElem?_map, List.getElem?_map, List.getElem?_eq_getElem hi2,
            List.getElem?_eq_getElem hj]
          rw [List.getD_eq_getElem _ _ hj] at h2a
          simp [h2a]
        exact List.nodup_iff_getElem?_ne_getElem?.mp hnd i j h3a
          (by simpa using hj) hkey
    · exact Or.inl
  rw [hcongr]
  rw [← List.countP_eq_length_filter, ← List.countP_eq_length_filter]
  have hmap := List.countP_map (fun p => decide (key p < key (ps.getD j default)))
    (Prod.snd (α := ℕ) (β := ℚ × ℚ)) (l := ps.enum)
  rw [List.enum_map_snd] at hmap
  rw [hmap]
  rfl

theorem resizePointsE_getD {ps : List (ℚ × ℚ)} {dX : ℚ} {j : ℕ}
    (hj : j < ps.length) (hnd : (ps.map Prod.fst).Nodup) :
    (resizePointsE ps dX).getD j default =
      (if 1 ≤ sortedPos Prod.fst ps j then
        ((ps.getD j default).1 +
            dX / ((ps.length : ℚ) - (sortedPos Prod.fst ps j : ℚ)),
          (ps.getD j default).2)
      else ps.getD j default) := by
  unfold resizePointsE
  rw [List.getD_eq_getElem _ _ (by simpa using hj)]
  simp only [List.getElem_map, List.getElem_enum]
  rw [stableRank_eq_sortedPos hj hnd, List.getD_eq_getElem _ _ hj]

theorem resizePointsS_getD {ps : List (ℚ × ℚ)} {dY : ℚ} {j : ℕ}
    (hj : j < ps.length) (hnd : (ps.map Prod.snd).Nodup) :
    (resizePointsS ps dY).getD j default =
      (if 1 ≤ sortedPos Prod.snd ps j then
        ((ps.getD j default).1,
          (ps.getD j default).2 +
            dY / ((ps.length : ℚ) - (sortedPos Prod.snd ps j : ℚ)))
      else ps.getD j default) := by
  unfold resizePointsS
  rw [List.getD_eq_getElem _ _ (by simpa using hj)]
  simp only [List.getElem_map, List.getElem_enum]
  rw [stableRank_eq_sortedPos hj hnd, List.getD_eq_getElem _ _ hj]

theorem resizePointsN_getD {ps : List (ℚ × ℚ)} {dY : ℚ} {j : ℕ}
    (hj : j < ps.length) (hnd : (ps.map Prod.snd).Nodup) :
    (resizePointsN ps dY).getD j default =
      (if 1 ≤ sortedPos Prod.snd ps j then
        ((ps.getD j default).1,
          (ps.getD j default).2 -
            dY / ((ps.length : ℚ) - (sortedPos Prod.snd ps j : ℚ)))
      else ps.getD j default) := by
  unfold resizePointsN
  rw [List.getD_eq_getElem _ _ (by simpa using hj)]
  simp only [List.getElem_map, List.getElem_enum]
  rw [stableRank_eq_sortedPos hj hnd, List.getD_eq_getElem _ _ hj]

theorem resizePointsW_getD {ps : List (ℚ × ℚ)} {dX : ℚ} {j : ℕ}
    (hj : j < ps.length) (hnd : (ps.map Prod.fst).Nodup) :
    (resizePointsW ps dX).getD j default =
      ((ps.getD j default).1 -
          dX / ((ps.length : ℚ) - (sortedPos Prod.fst ps j : ℚ)),
        (ps.getD j default).2) := by
  unfold resizePointsW
  rw [List.getD_eq_getElem _ _ (by simpa using hj)]
  simp only [List.getElem_map, List.getElem_enum]
  rw [stableRank_eq_sortedPos hj hnd, List.getD_eq_getElem _ _ hj]

theorem abs_div_le_abs_div {d a b : ℚ} (hb : 0 < b) (hba : b ≤ a) :
    |d / a| ≤ |d / b| := by
  rw [abs_div, abs_div, abs_of_pos (lt_of_lt_of_le hb hba), abs_of_pos hb]
  exact div_le_div_of_nonneg_left (abs_nonneg d) hb hba

theorem abs_sub_div_mono {d a b : ℚ} (hb : 1 ≤ b) (hba : b ≤ a) :
    |d - d / b| ≤ |d - d / a| := by
  have hb0 : (0 : ℚ) < b := lt_of_lt_of_le one_pos hb
  have ha0 : (0 : ℚ) < a := lt_of_lt_of_le hb0 hba
  have e1 : d - d / b = d * (1 - 1 / b) := by ring
  have e2 : d - d / a = d * (1 - 1 / a) := by ring
  have hinv : 1 / a ≤ 1 / b := one_div_le_one_div_of_le hb0 hba
  have hfb : (0 : ℚ) ≤ 1 - 1 / b := by
    have : 1 / b ≤ 1 / 1 := one_div_le_one_div_of_le one_pos hb
    simp only [div_one] at this
    linarith
  rw [e1, e2, abs_mul, abs_mul, abs_of_nonneg hfb,
    abs_of_nonneg (by linarith : (0 : ℚ) ≤ 1 - 1 / a)]
  exact mul_le_mul_of_nonneg_left (by linarith) (abs_nonneg d)

theorem abs_sub_div_le_abs {d b : ℚ} (hb : 1 ≤ b) : |d - d / b| ≤ |d| := by
  have hb0 : (0 : ℚ) < b := lt_of_lt_of_le one_pos hb
  have e1 : d - d / b = d * (1 - 1 / b) := by ring
  have hfb : (0 : ℚ) ≤ 1 - 1 / b := by
    have : 1 / b ≤ 1 / 1 := one_div_le_one_div_of_le one_pos hb
    simp only [div_one] at this
    linarith
  have hfb1 : 1 - 1 / b ≤ 1 := by
    have : 0 < 1 / b := by positivity
    linarith
  rw [e1, abs_mul, abs_of_nonneg hfb]
  calc |d| * (1 - 1 / b) ≤ |d| * 1 := mul_le_mul_of_nonneg_left hfb1 (abs_nonneg d)
    _ = |d| := mul_one _

/-- The on-screen (absolute) x-displacement of the `j`-th point after a
resize taking `el` to `q`. -/
def absDispX (el q : LinearElement) (j : ℕ) : ℚ :=
  (q.x + (q.points.getD j default).1) - (el.x + (el.points.getD j default).1)

/-- The on-screen (absolute) y-displacement of the `j`-th point after a
resize taking `el` to `q`. -/
def absDispY (el q : LinearElement) (j : ℕ) : ℚ :=
  (q.y + (q.points.getD j default).2) - (el.y + (el.points.getD j default).2)

theorem denom_ge_one (key : ℚ × ℚ → ℚ) {ps : List (ℚ × ℚ)} {j : ℕ}
    (hj : j < ps.length) :
    (1 : ℚ) ≤ (ps.length : ℚ) - (sortedPos key ps j : ℚ) := by
  have h := @sortedPos_lt_length key _ _ hj
  have h2 : (sortedPos key ps j : ℚ) + 1 ≤ (ps.length : ℚ) := by exact_mod_cast h
  linarith

theorem absDispE_formula (el : LinearElement) (dX : ℚ)
    (hnd : (el.points.map Prod.fst).Nodup) {j : ℕ} (hj : j < el.points.length) :
    absDispX el (resizeHandleE el dX) j =
      (if 1 ≤ sortedPos Prod.fst el.points j then
        dX / ((el.points.length : ℚ) - (sortedPos Prod.fst el.points j : ℚ))
      else 0) := by
  unfold absDispX
  simp only [resizeHandleE]
  rw [resizePointsE_getD hj hnd]
  split_ifs with h
  · simp
  · simp

theorem absDispS_formula (el : LinearElement) (dY : ℚ)
    (hnd : (el.points.map Prod.snd).Nodup) {j : ℕ} (hj : j < el.points.length) :
    absDispY el (resizeHandleS el dY) j =
      (if 1 ≤ sortedPos Prod.snd el.points j then
        dY / ((el.points.length : ℚ) - (sortedPos Prod.snd el.points j : ℚ))
      else 0) := by
  unfold absDispY
  simp only [resizeHandleS]
  rw [resizePointsS_getD hj hnd]
  split_ifs with h
  · simp
  · simp

theorem absDispN_formula (el : LinearElement) (dY : ℚ)
    (hnd : (el.points.map Prod.snd).Nodup) {j : ℕ} (hj : j < el.points.length) :
    absDispY el (resizeHandleN el dY) j =
      (if 1 ≤ sortedPos Prod.snd el.points j then
        dY - dY / ((el.points.length : ℚ) - (sortedPos Prod.snd el.points j : ℚ))
      else dY) := by
  unfold absDispY
  simp only [resizeHandleN]
  rw [resizePointsN_getD hj hnd]
  split_ifs with h
  · simp
    ring
  · simp

theorem absDispW_formula (el : LinearElement) (dX : ℚ)
    (hnd : (el.points.map Prod.fst).Nodup) {j : ℕ} (hj : j < el.points.length) :
    absDispX el (resizeHandleW el dX) j =
      dX - dX / ((el.points.length : ℚ) - (sortedPos Prod.fst el.points j : ℚ)) := by
  unfold absDispX
  simp only [resizeHandleW]
  rw [resizePointsW_getD hj hnd]
  simp
  ring

/-! ## Helper lemmas about the history stacks -/

theorem pushEntry_of_getLast_ne {h : SceneHistory} {e : String}
    (hne : h.stateHistory.getLast? ≠ some e) :
    pushEntry h e = ⟨h.stateHistory ++ [e], []⟩ := by
  unfold pushEntry
  rw [if_neg]
  simp only [Bool.and_eq_true, decide_eq_true_eq, beq_iff_eq]
  rintro ⟨-, h2⟩
  exact hne h2

theorem pushEntry_of_getLast_eq {h : SceneHistory} {e : String}
    (heq : h.stateHistory.getLast? = some e) :
    pushEntry h e = h := by
  have hne : h.stateHistory ≠ [] := by
    intro h0
    rw [h0] at heq
    simp at heq
  unfold pushEntry
  rw [if_pos]
  simp only [Bool.and_eq_true, decide_eq_true_eq, beq_iff_eq]
  exact ⟨List.length_pos.mpr hne, heq⟩

theorem undoOnce_concat {J : Type} (parse : String → Option J) (l : List String)
    (cur : String) (r : List String) :
    undoOnce parse ⟨l ++ [cur], r⟩ = (l.getLast?.bind parse, ⟨l, r ++ [cur]⟩) := by
  unfold undoOnce restoreEntry
  simp [List.getLast?_concat, List.dropLast_concat]

theorem redoOnce_concat {J : Type} (parse : String → Option J) (s : List String)
    (r : List String) (top : String) :
    redoOnce parse ⟨s, r ++ [top]⟩ = (parse top, ⟨s ++ [top], r⟩) := by
  unfold redoOnce restoreEntry
  simp [List.getLast?_concat, List.dropLast_concat]

theorem redoOnce_nil {J : Type} (parse : String → Option J) (s : List String) :
    redoOnce parse ⟨s, []⟩ = (none, ⟨s, []⟩) := by
  unfold redoOnce
  simp

/-! ## Claims C2, C3, C4, C7 -/

/-- C2: with a baseline snapshot `e0` on the undo stack, pushing three distinct
committed edits `e1, e2, e3` and undoing three times restores the pre-edit
state `e0`; redoing three times then restores `e3` and the original stacks;
pushing a distinct entry `e4` after one undo clears the redo stack, so the
next redo returns null; and pushing an entry identical to the current top is
ignored. -/
theorem C2_undo_redo {J : Type} (parse : String → Option J) (e0 e1 e2 e3 e4 : String)
    (h10 : e1 ≠ e0) (h21 : e2 ≠ e1) (h32 : e3 ≠ e2) (h42 : e4 ≠ e2) :
    pushEntry (pushEntry (pushEntry ⟨[e0], []⟩ e1) e2) e3 = ⟨[e0, e1, e2, e3], []⟩ ∧
    undoOnce parse ⟨[e0, e1, e2, e3], []⟩ = (parse e2, ⟨[e0, e1, e2], [e3]⟩) ∧
    undoOnce parse ⟨[e0, e1, e2], [e3]⟩ = (parse e1, ⟨[e0, e1], [e3, e2]⟩) ∧
    undoOnce parse ⟨[e0, e1], [e3, e2]⟩ = (parse e0, ⟨[e0], [e3, e2, e1]⟩) ∧
    redoOnce parse ⟨[e0], [e3, e2, e1]⟩ = (parse e1, ⟨[e0, e1], [e3, e2]⟩) ∧
    redoOnce parse ⟨[e0, e1], [e3, e2]⟩ = (parse e2, ⟨[e0, e1, e2], [e3]⟩) ∧
    redoOnce parse ⟨[e0, e1, e2], [e3]⟩ = (parse e3, ⟨[e0, e1, e2, e3], []⟩) ∧
    pushEntry ⟨[e0, e1, e2], [e3]⟩ e4 = ⟨[e0, e1, e2, e4], []⟩ ∧
    redoOnce parse ⟨[e0, e1, e2, e4], []⟩ = (none, ⟨[e0, e1, e2, e4], []⟩) ∧
    pushEntry ⟨[e0, e1, e2, e3], []⟩ e3 = ⟨[e0, e1, e2, e3], []⟩ := by
  refine ⟨?_, ?_, ?_, ?_, ?_, ?_, ?_, ?_, ?_, ?_⟩
  · have p1 : pushEntry ⟨[e0], []⟩ e1 = ⟨[e0, e1], []⟩ := by
      rw [pushEntry_of_getLast_ne (by simpa using fun h => h10 h.symm)]
      rfl
    have p2 : pushEntry ⟨[e0, e1], []⟩ e2 = ⟨[e0, e1, e2], []⟩ := by
      rw [pushEntry_of_getLast_ne (by simpa using fun h => h21 h.symm)]
      rfl
    have p3 : pushEntry ⟨[e0, e1, e2], []⟩ e3 = ⟨[e0, e1, e2, e3], []⟩ := by
      rw [pushEntry_of_getLast_ne (by simpa using fun h => h32 h.symm)]
      rfl
    rw [p1, p2, p3]
  · simpa using undoOnce_concat parse [e0, e1, e2] e3 []
  · simpa using undoOnce_concat parse [e0, e1] e2 [e3]
  · simpa using undoOnce_concat parse [e0] e1 [e3, e2]
  · simpa using redoOnce_concat parse [e0] [e3, e2] e1
  · simpa using redoOnce_concat parse [e0, e1] [e3] e2
  · simpa using redoOnce_concat parse [e0, e1, e2] [] e3
  · rw [pushEntry_of_getLast_ne (by simpa using fun h => h42 h.symm)]
    rfl
  · exact redoOnce_nil parse [e0, e1, e2, e4]
  · exact pushEntry_of_getLast_eq (by simp)

/-- C2 witness: the scenario at concrete entries and a concrete parse. -/
theorem C2_undo_redo_witness :
    ("1" : String) ≠ "0" ∧
    undoOnce parse0 ⟨["0", "1", "2", "3"], []⟩ = (parse0 "2", ⟨["0", "1", "2"], ["3"]⟩) ∧
    redoOnce parse0 ⟨["0", "1", "2"], ["3"]⟩ = (parse0 "3", ⟨["0", "1", "2", "3"], []⟩) :=
  ⟨by decide,
   (C2_undo_redo parse0 "0" "1" "2" "3" "4" (by decide) (by decide) (by decide)
      (by decide)).2.1,
   (C2_undo_redo parse0 "0" "1" "2" "3" "4" (by decide) (by decide) (by decide)
      (by decide)).2.2.2.2.2.2.1⟩

/-- C3 counterexample: with undo stack `["bad", "{}"]` (top `"{}"`, the entry
that undo would restore is the unparseable `"bad"`), `undoOnce` returns null
yet the stacks ARE modified, contradicting the claim that neither stack
changes. -/
theorem C3_counterexample_undo_modifies_stacks :
    (undoOnce parse0 ⟨["bad", "{}"], []⟩).1 = none ∧
    (undoOnce parse0 ⟨["bad", "{}"], []⟩).2 ≠ ⟨["bad", "{}"], []⟩ := by
  constructor
  · decide
  · decide

/-- C3 (amended): when the entry that undo (resp. redo) would restore is not
parseable, the operation returns null ("nothing to restore") — but it still
advances the stacks: undo moves the popped top onto the redo stack, redo
moves the popped entry back onto the undo stack. -/
theorem C3_amended_unparseable_restore {J : Type} (parse : String → Option J)
    (h : SceneHistory) :
    (∀ cur, h.stateHistory.getLast? = some cur →
      h.stateHistory.dropLast.getLast?.bind parse = none →
      undoOnce parse h = (none, ⟨h.stateHistory.dropLast, h.redoStack ++ [cur]⟩)) ∧
    (∀ top, h.redoStack.getLast? = some top → parse top = none →
      redoOnce parse h = (none, ⟨h.stateHistory ++ [top], h.redoStack.dropLast⟩)) := by
  constructor
  · intro cur hcur hparse
    unfold undoOnce
    rw [hcur]
    simp only [restoreEntry]
    rw [hparse]
  · intro top htop hparse
    unfold redoOnce
    rw [htop]
    simp only [restoreEntry]
    rw [hparse]

/-- C3 (amended) witness: the concrete unparseable-snapshot state. -/
theorem C3_amended_unparseable_restore_witness :
    undoOnce parse0 ⟨["bad", "{}"], []⟩ = (none, ⟨["bad"], ["{}"]⟩) :=
  (C3_amended_unparseable_restore parse0 ⟨["bad", "{}"], []⟩).1 "{}" (by decide)
    (by decide)

/-- C4: for a filled rectangle (backgroundColor not "transparent", committed
non-negative dimensions), every point strictly inside the absolute bounding
box expanded by 10 px on all sides is a hit, and every point more than 10 px
outside the box in some coordinate (Chebyshev distance > 10) is not. -/
theorem C4_hitTest_filled_rectangle (e : BoxElement) (x y : ℚ)
    (hfill : e.backgroundColor ≠ "transparent")
    (hw : 0 ≤ e.width) (hh : 0 ≤ e.height) :
    ((e.x - 10 < x ∧ x < e.x + e.width + 10 ∧ e.y - 10 < y ∧ y < e.y + e.height + 10) →
      hitTestRectangle e x y = true) ∧
    ((x < e.x - 10 ∨ e.x + e.width + 10 < x ∨ y < e.y - 10 ∨ e.y + e.height + 10 < y) →
      hitTestRectangle e x y = false) := by
  unfold hitTestRectangle getElementAbsoluteCoords
  rw [if_pos hfill]
  constructor
  · rintro ⟨h1, h2, h3, h4⟩
    simp only [Bool.and_eq_true, decide_eq_true_eq]
    exact ⟨⟨⟨h1, h2⟩, h3⟩, h4⟩
  · intro hout
    rw [← Bool.not_eq_true]
    simp only [Bool.and_eq_true, decide_eq_true_eq]
    rintro ⟨⟨⟨h1, h2⟩, h3⟩, h4⟩
    rcases hout with h | h | h | h <;> linarith

/-- C4 witness: a 100 × 50 filled rectangle at the origin, with a point just
inside the expanded box and a point beyond it. -/
theorem C4_hitTest_filled_rectangle_witness :
    hitTestRectangle ⟨0, 0, 100, 50, "#ffffff"⟩ (-9) (-9) = true ∧
    hitTestRectangle ⟨0, 0, 100, 50, "#ffffff"⟩ 111 25 = false :=
  ⟨(C4_hitTest_filled_rectangle ⟨0, 0, 100, 50, "#ffffff"⟩ (-9) (-9) (by decide)
      (by norm_num) (by norm_num)).1 (by norm_num),
   (C4_hitTest_filled_rectangle ⟨0, 0, 100, 50, "#ffffff"⟩ 111 25 (by decide)
      (by norm_num) (by norm_num)).2 (by norm_num)⟩

/-- C8: for a linear element with more than two points, each edge-handle case
(n, w, s, e) distributes the pointer delta over the points sorted by the
resized coordinate with weights `1/(len - i)` (`i` the sorted position; the
n/s/e loops skip sorted position 0, the w loop also updates it), and the
resulting on-screen displacement magnitude is monotone in the resized
coordinate so the point nearest the fixed opposite edge moves least — that
nearest point does not move at all. -/
theorem C8_linear_edge_resize (el : LinearElement) (dX dY : ℚ)
    (hn : 2 < el.points.length) :
    ((el.points.map Prod.snd).Nodup →
      (resizeHandleN el dY).y = el.y + dY ∧
      (resizeHandleN el dY).height = el.height - dY ∧
      (resizeHandleN el dY).points.length = el.points.length ∧
      (∀ j, j < el.points.length →
        (resizeHandleN el dY).points.getD j default =
          (if 1 ≤ sortedPos Prod.snd el.points j then
            ((el.points.getD j default).1,
              (el.points.getD j default).2 -
                dY / ((el.points.length : ℚ) - (sortedPos Prod.snd el.points j : ℚ)))
          else el.points.getD j default)) ∧
      (∀ j k, j < el.points.length → k < el.points.length →
        (el.points.getD j default).2 ≤ (el.points.getD k default).2 →
        |absDispY el (resizeHandleN el dY) k| ≤ |absDispY el (resizeHandleN el dY) j|) ∧
      (∀ j, j < el.points.length →
        (∀ k, k < el.points.length →
          (el.points.getD k default).2 ≤ (el.points.getD j default).2) →
        absDispY el (resizeHandleN el dY) j = 0)) ∧
    ((el.points.map Prod.fst).Nodup →
      (resizeHandleW el dX).x = el.x + dX ∧
      (resizeHandleW el dX).width = el.width - dX ∧
      (resizeHandleW el dX).points.length = el.points.length ∧
      (∀ j, j < el.points.length →
        (resizeHandleW el dX).points.getD j default =
          ((el.points.getD j default).1 -
              dX / ((el.points.length : ℚ) - (sortedPos Prod.fst el.points j : ℚ)),
            (el.points.getD j default).2)) ∧
      (∀ j k, j < el.points.length → k < el.points.length →
        (el.points.getD j default).1 ≤ (el.points.getD k default).1 →
        |absDispX el (resizeHandleW el dX) k| ≤ |absDispX el (resizeHandleW el dX) j|) ∧
      (∀ j, j < el.points.length →
        (∀ k, k < el.points.length →
          (el.points.getD k default).1 ≤ (el.points.getD j default).1) →
        absDispX el (resizeHandleW el dX) j = 0)) ∧
    ((el.points.map Prod.snd).Nodup →
      (resizeHandleS el dY).height = el.height + dY ∧
      (resizeHandleS el dY).y = el.y ∧
      (resizeHandleS el dY).points.length = el.points.length ∧
      (∀ j, j < el.points.length →
        (resizeHandleS el dY).points.getD j default =
          (if 1 ≤ sortedPos Prod.snd el.points j then
            ((el.points.getD j default).1,
              (el.points.getD j default).2 +
                dY / ((el.points.length : ℚ) - (sortedPos Prod.snd el.points j : ℚ)))
          else el.points.getD j default)) ∧
      (∀ j k, j < el.points.length → k < el.points.length →
        (el.points.getD j default).2 ≤ (el.points.getD k default).2 →
        |absDispY el (resizeHandleS el dY) j| ≤ |absDispY el (resizeHandleS el dY) k|) ∧
      (∀ j, j < el.points.length →
        (∀ k, k < el.points.length →
          (el.points.getD j default).2 ≤ (el.points.getD k default).2) →
        absDispY el (resizeHandleS el dY) j = 0)) ∧
    ((el.points.map Prod.fst).Nodup →
      (resizeHandleE el dX).width = el.width + dX ∧
      (resizeHandleE el dX).x = el.x ∧
      (resizeHandleE el dX).points.length = el.points.length ∧
      (∀ j, j < el.points.length →
        (resizeHandleE el dX).points.getD j default =
          (if 1 ≤ sortedPos Prod.fst el.points j then
            ((el.points.getD j default).1 +
                dX / ((el.points.length : ℚ) - (sortedPos Prod.fst el.points j : ℚ)),
              (el.points.getD j default).2)
          else el.points.getD j default)) ∧
      (∀ j k, j < el.points.length → k < el.points.length →
        (el.points.getD j default).1 ≤ (el.points.getD k default).1 →
        |absDispX el (resizeHandleE el dX) j| ≤ |absDispX el (resizeHandleE el dX) k|) ∧
      (∀ j, j < el.points.length →
        (∀ k, k < el.points.length →
          (el.points.getD j default).1 ≤ (el.points.getD k default).1) →
        absDispX el (resizeHandleE el dX) j = 0)) := by
  refine ⟨fun hnd => ⟨rfl, rfl, by simp [resizeHandleN, resizePointsN], ?_, ?_, ?_⟩,
    fun hnd => ⟨rfl, rfl, by simp [resizeHandleW, resizePointsW], ?_, ?_, ?_⟩,
    fun hnd => ⟨rfl, rfl, by simp [resizeHandleS, resizePointsS], ?_, ?_, ?_⟩,
    fun hnd => ⟨rfl, rfl, by simp [resizeHandleE, resizePointsE], ?_, ?_, ?_⟩⟩
  -- case n: value formula
  · intro j hj
    exact resizePointsN_getD hj hnd
  -- case n: monotone displacement
  · intro j k hj hk hle
    have hmono := @sortedPos_mono Prod.snd el.points _ _ hle
    rw [absDispN_formula el dY hnd hj, absDispN_formula el dY hnd hk]
    by_cases hrj : 1 ≤ sortedPos Prod.snd el.points j
    · have hrk : 1 ≤ sortedPos Prod.snd el.points k := le_trans hrj hmono
      rw [if_pos hrj, if_pos hrk]
      refine abs_sub_div_mono (denom_ge_one Prod.snd hk) ?_
      have hc : (sortedPos Prod.snd el.points j : ℚ) ≤
          (sortedPos Prod.snd el.points k : ℚ) := by exact_mod_cast hmono
      linarith
    · rw [if_neg hrj]
      by_cases hrk : 1 ≤ sortedPos Prod.snd el.points k
      · rw [if_pos hrk]
        exact abs_sub_div_le_abs (denom_ge_one Prod.snd hk)
      · rw [if_neg hrk]
  -- case n: the point at the fixed (south) edge does not move
  · intro j hj hmax
    have h1 := sortedPos_eq_of_max hj hnd hmax
    rw [absDispN_formula el dY hnd hj, h1, if_pos (by omega)]
    rw [Nat.cast_sub (by omega : 1 ≤ el.points.length)]
    rw [show (el.points.length : ℚ) - ((el.points.length : ℚ) - (1 : ℕ)) = 1 by
      push_cast
      ring]
    rw [div_one, sub_self]
  -- case w: value formula
  · intro j hj
    exact resizePointsW_getD hj hnd
  -- case w: monotone displacement
  · intro j k hj hk hle
    have hmono := @sortedPos_mono Prod.fst el.points _ _ hle
    rw [absDispW_formula el dX hnd hj, absDispW_formula el dX hnd hk]
    refine abs_sub_div_mono (denom_ge_one Prod.fst hk) ?_
    have hc : (sortedPos Prod.fst el.points j : ℚ) ≤
        (sortedPos Prod.fst el.points k : ℚ) := by exact_mod_cast hmono
    linarith
  -- case w: the point at the fixed (east) edge does not move
  · intro j hj hmax
    have h1 := sortedPos_eq_of_max hj hnd hmax
    rw [absDispW_formula el dX hnd hj, h1]
    rw [Nat.cast_sub (by omega : 1 ≤ el.points.length)]
    rw [show (el.points.length : ℚ) - ((el.points.length : ℚ) - (1 : ℕ)) = 1 by
      push_cast
      ring]
    rw [div_one, sub_self]
  -- case s: value formula
  · intro j hj
    exact resizePointsS_getD hj hnd
  -- case s: monotone displacement
  · intro j k hj hk hle
    have hmono := @sortedPos_mono Prod.snd el.points _ _ hle
    rw [absDispS_formula el dY hnd hj, absDispS_formula el dY hnd hk]
    by_cases hrj : 1 ≤ sortedPos Prod.snd el.points j
    · have hrk : 1 ≤ sortedPos Prod.snd el.points k := le_trans hrj hmono
      rw [if_pos hrj, if_pos hrk]
      refine abs_div_le_abs_div (lt_of_lt_of_le one_pos (denom_ge_one Prod.snd hk)) ?_
      have hc : (sortedPos Prod.snd el.points j : ℚ) ≤
          (sortedPos Prod.snd el.points k : ℚ) := by exact_mod_cast hmono
      linarith
    · rw [if_neg hrj]
      simpa using abs_nonneg _
  -- case s: the point at the fixed (north) edge does not move
  · intro j hj hmin
    have h0 := @sortedPos_eq_zero Prod.snd _ _ hmin
    rw [absDispS_formula el dY hnd hj, h0]
    norm_num
  -- case e: value formula
  · intro j hj
    exact resizePointsE_getD hj hnd
  -- case e: monotone displacement
  · intro j k hj hk hle
    have hmono := @sortedPos_mono Prod.fst el.points _ _ hle
    rw [absDispE_formula el dX hnd hj, absDispE_formula el dX hnd hk]
    by_cases hrj : 1 ≤ sortedPos Prod.fst el.points j
    · have hrk : 1 ≤ sortedPos Prod.fst el.points k := le_trans hrj hmono
      rw [if_pos hrj, if_pos hrk]
      refine abs_div_le_abs_div (lt_of_lt_of_le one_pos (denom_ge_one Prod.fst hk)) ?_
      have hc : (sortedPos Prod.fst el.points j : ℚ) ≤
          (sortedPos Prod.fst el.points k : ℚ) := by exact_mod_cast hmono
      linarith
    · rw [if_neg hrj]
      simpa using abs_nonneg _
  -- case e: the point at the fixed (west) edge does not move
  · intro j hj hmin
    have h0 := @sortedPos_eq_zero Prod.fst _ _ hmin
    rw [absDispE_formula el dX hnd hj, h0]
    norm_num

/-- C8 witness: a 3-point polyline, north handle; the southmost point (index
2) does not move. -/
theorem C8_linear_edge_resize_witness :
    2 < ([((0 : ℚ), (0 : ℚ)), (5, 3), (9, 7)] : List (ℚ × ℚ)).length ∧
    absDispY ⟨0, 0, 10, 10, [(0, 0), (5, 3), (9, 7)]⟩
      (resizeHandleN ⟨0, 0, 10, 10, [(0, 0), (5, 3), (9, 7)]⟩ 3) 2 = 0 :=
  ⟨by norm_num,
   ((C8_linear_edge_resize ⟨0, 0, 10, 10, [(0, 0), (5, 3), (9, 7)]⟩ 2 3
        (by norm_num)).1 (by decide)).2.2.2.2.2 2 (by norm_num)
     (by
       intro k hk
       simp only [List.length_cons, List.length_nil] at hk
       interval_cases k <;> decide)⟩

/-- C6: for every arrow element (first point `(0,0)`, at least two points,
non-degenerate last segment), `getArrowPoints` returns the tip followed by the
two arrowhead wing endpoints, which are the point at distance
`min(30, polyline-length / 2)` behind the tip along the last segment's reverse
direction, rotated by −20° and +20° around the tip; both wings have exactly
that length, which is capped at 30. -/
theorem C6_arrow_wing_geometry (e : ArrowElement)
    (hlen : 2 ≤ e.points.length)
    (hfirst : e.points.getD 0 (0, 0) = (0, 0))
    (hseg : ¬((arrowTip e).1 - (arrowPrev e).1 = 0 ∧
      (arrowTip e).2 - (arrowPrev e).2 = 0)) :
    getArrowPoints e =
      [(arrowTip e).1, (arrowTip e).2,
        (rotate (arrowBase e).1 (arrowBase e).2 (arrowTip e).1 (arrowTip e).2
          (-20 * Real.pi / 180)).1,
        (rotate (arrowBase e).1 (arrowBase e).2 (arrowTip e).1 (arrowTip e).2
          (-20 * Real.pi / 180)).2,
        (rotate (arrowBase e).1 (arrowBase e).2 (arrowTip e).1 (arrowTip e).2
          (20 * Real.pi / 180)).1,
        (rotate (arrowBase e).1 (arrowBase e).2 (arrowTip e).1 (arrowTip e).2
          (20 * Real.pi / 180)).2] ∧
    hypot ((getArrowPoints e).getD 2 0 - (arrowTip e).1)
        ((getArrowPoints e).getD 3 0 - (arrowTip e).2) = arrowWingSize e ∧
    hypot ((getArrowPoints e).getD 4 0 - (arrowTip e).1)
        ((getArrowPoints e).getD 5 0 - (arrowTip e).2) = arrowWingSize e ∧
    hypot ((arrowBase e).1 - (arrowTip e).1) ((arrowBase e).2 - (arrowTip e).2) =
      arrowWingSize e ∧
    0 ≤ arrowWingSize e ∧ arrowWingSize e ≤ 30 := by
  have hne : e.points ≠ [] := by
    intro h
    rw [h] at hlen
    simp at hlen
  have harrow := arrowLength_eq_polylineLength hne hfirst
  have hm0 : 0 ≤ arrowWingSize e := by
    unfold arrowWingSize
    have := polylineLength_nonneg e.points
    exact le_min (by norm_num) (by linarith)
  have hd : 0 < hypot ((arrowTip e).1 - (arrowPrev e).1)
      ((arrowTip e).2 - (arrowPrev e).2) := hypot_pos hseg
  have hd2 : hypot ((arrowTip e).1 - (arrowPrev e).1)
        ((arrowTip e).2 - (arrowPrev e).2) ^ 2 =
      ((arrowTip e).1 - (arrowPrev e).1) ^ 2 +
        ((arrowTip e).2 - (arrowPrev e).2) ^ 2 := hypot_sq
  have hbase : ((arrowBase e).1 - (arrowTip e).1) ^ 2 +
      ((arrowBase e).2 - (arrowTip e).2) ^ 2 = arrowWingSize e ^ 2 := by
    unfold arrowBase
    have hdne : hypot ((arrowTip e).1 - (arrowPrev e).1)
        ((arrowTip e).2 - (arrowPrev e).2) ≠ 0 := ne_of_gt hd
    field_simp
    linear_combination (-(arrowWingSize e ^ 2)) * hd2
  have hlist : getArrowPoints e =
      [(arrowTip e).1, (arrowTip e).2,
        (rotate (arrowBase e).1 (arrowBase e).2 (arrowTip e).1 (arrowTip e).2
          (-20 * Real.pi / 180)).1,
        (rotate (arrowBase e).1 (arrowBase e).2 (arrowTip e).1 (arrowTip e).2
          (-20 * Real.pi / 180)).2,
        (rotate (arrowBase e).1 (arrowBase e).2 (arrowTip e).1 (arrowTip e).2
          (20 * Real.pi / 180)).1,
        (rotate (arrowBase e).1 (arrowBase e).2 (arrowTip e).1 (arrowTip e).2
          (20 * Real.pi / 180)).2] := by
    simp only [getArrowPoints, ge_iff_le, hlen, if_true]
    rw [harrow]
    unfold arrowBase arrowWingSize arrowTip arrowPrev
    rfl
  have hwing : ∀ angle : ℝ,
      hypot ((rotate (arrowBase e).1 (arrowBase e).2 (arrowTip e).1 (arrowTip e).2
          angle).1 - (arrowTip e).1)
        ((rotate (arrowBase e).1 (arrowBase e).2 (arrowTip e).1 (arrowTip e).2
          angle).2 - (arrowTip e).2) = arrowWingSize e := by
    intro angle
    unfold hypot
    rw [show ∀ a b : ℝ, a * a + b * b = a ^ 2 + b ^ 2 from fun a b => by ring]
    rw [rotate_dist_sq, hbase]
    exact Real.sqrt_sq hm0
  refine ⟨hlist, ?_, ?_, ?_, hm0, min_le_left _ _⟩
  · rw [hlist]
    simp only [List.getD_cons_succ, List.getD_cons_zero]
    exact hwing _
  · rw [hlist]
    simp only [List.getD_cons_succ, List.getD_cons_zero]
    exact hwing _
  · unfold hypot
    rw [show ∀ a b : ℝ, a * a + b * b = a ^ 2 + b ^ 2 from fun a b => by ring]
    rw [hbase]
    exact Real.sqrt_sq hm0

/-- C5 (code bug): for the horizontal arrow `[(0,0), (100,0)]` anchored at the
origin, the query point `(10, 0)` lies ON the arrow's shaft segment (squared
distance `0 < 10²`), yet the arrow branch of `hitTest` returns false: it
destructures eight coordinates out of `getArrowPoints`' six-element result,
so it tests the wing-to-wing chord and the tip-to-first-wing segment, never
the shaft, and its third test reads `undefined` (never true). -/
theorem C5_arrow_hitTest_misses_shaft :
    ¬ hitTestArrow ⟨0, 0, [(0, 0), (100, 0)]⟩ 10 0 ∧
    distanceSqSegReal 10 0 0 0 100 0 < 10 ^ 2 := by
  constructor
  · intro h
    unfold hitTestArrow at h
    rw [getArrowPoints_shaft_example] at h
    simp only [List.getElem?_cons_zero, List.getElem?_cons_succ,
      List.getElem?_nil, segmentTestOpt] at h
    norm_num at h
    have hcos := Real.cos_le_one (20 * Real.pi / 180)
    have hA : (70 : ℝ) ≤ 100 - 30 * Real.cos (20 * Real.pi / 180) := by linarith
    rcases h with h | h
    · have hlow := @distSqSegReal_ge_left 10 0
        (100 - 30 * Real.cos (20 * Real.pi / 180))
        (-(30 * Real.sin (20 * Real.pi / 180)))
        (100 - 30 * Real.cos (20 * Real.pi / 180))
        (30 * Real.sin (20 * Real.pi / 180))
        70 hA hA (by norm_num : (10 : ℝ) ≤ 70)
      norm_num at hlow
      linarith
    · have hlow := @distSqSegReal_ge_left 10 0 100 0
        (100 - 30 * Real.cos (20 * Real.pi / 180))
        (30 * Real.sin (20 * Real.pi / 180))
        70 (by norm_num : (70 : ℝ) ≤ 100) hA
        (by norm_num : (10 : ℝ) ≤ 70)
      norm_num at hlow
      linarith
  · norm_num [distanceSqSegReal]

/-- C6 witness: the arrow `[(0,0), (3,4)]` (length 5, wing size `5/2`). -/
theorem C6_arrow_wing_geometry_witness :
    0 ≤ arrowWingSize ⟨0, 0, [(0, 0), (3, 4)]⟩ ∧
    hypot ((arrowBase ⟨0, 0, [(0, 0), (3, 4)]⟩).1 -
        (arrowTip ⟨0, 0, [(0, 0), (3, 4)]⟩).1)
      ((arrowBase ⟨0, 0, [(0, 0), (3, 4)]⟩).2 -
        (arrowTip ⟨0, 0, [(0, 0), (3, 4)]⟩).2) =
      arrowWingSize ⟨0, 0, [(0, 0), (3, 4)]⟩ :=
  ⟨(C6_arrow_wing_geometry ⟨0, 0, [(0, 0), (3, 4)]⟩ (by norm_num) rfl
      (by norm_num [arrowTip, arrowPrev])).2.2.2.2.1,
   (C6_arrow_wing_geometry ⟨0, 0, [(0, 0), (3, 4)]⟩ (by norm_num) rfl
      (by norm_num [arrowTip, arrowPrev])).2.2.2.1⟩

/-- C7 counterexample: for a 1 × 1 diamond, the right and bottom vertices
returned by `getDiamondPoints` coincide, so the right→bottom edge fed to the
generator has zero length — falsifying "no edge fed to the rough-rendering
generator has zero length". -/
theorem C7_counterexample_diamond_degenerate :
    ((getDiamondPoints ⟨0, 0, 1, 1, "#fff"⟩).rightX,
        (getDiamondPoints ⟨0, 0, 1, 1, "#fff"⟩).rightY) =
      ((getDiamondPoints ⟨0, 0, 1, 1, "#fff"⟩).bottomX,
        (getDiamondPoints ⟨0, 0, 1, 1, "#fff"⟩).bottomY) := by
  have hfloor : Int.floor ((1 : ℚ) / 2) = 0 := by
    rw [Int.floor_eq_zero_iff, Set.mem_Ico]
    norm_num
  simp [getDiamondPoints, hfloor]
  norm_num

/-- C7 (amended): `getDiamondPoints` returns the four vertices
`(⌊w/2⌋+1, 0)`, `(w, ⌊h/2⌋+1)`, `(⌊w/2⌋+1, h)`, `(0, ⌊h/2⌋+1)` — each vertex
has one coordinate offset by `+1` — and the computation is total (never
raises); the four generator edges are guaranteed to have nonzero length once
both dimensions are at least 3 (for smaller sizes, e.g. 1 × 1, adjacent
vertices can coincide). -/
theorem C7_diamond_points (e : BoxElement) (hw : 3 ≤ e.width) (hh : 3 ≤ e.height) :
    getDiamondPoints e =
      { topX := ((Int.floor (e.width / 2) : ℤ) : ℚ) + 1, topY := 0,
        rightX := e.width, rightY := ((Int.floor (e.height / 2) : ℤ) : ℚ) + 1,
        bottomX := ((Int.floor (e.width / 2) : ℤ) : ℚ) + 1, bottomY := e.height,
        leftX := 0, leftY := ((Int.floor (e.height / 2) : ℤ) : ℚ) + 1 } ∧
    (((getDiamondPoints e).topX, (getDiamondPoints e).topY) ≠
        ((getDiamondPoints e).rightX, (getDiamondPoints e).rightY)) ∧
    (((getDiamondPoints e).rightX, (getDiamondPoints e).rightY) ≠
        ((getDiamondPoints e).bottomX, (getDiamondPoints e).bottomY)) ∧
    (((getDiamondPoints e).bottomX, (getDiamondPoints e).bottomY) ≠
        ((getDiamondPoints e).leftX, (getDiamondPoints e).leftY)) ∧
    (((getDiamondPoints e).leftX, (getDiamondPoints e).leftY) ≠
        ((getDiamondPoints e).topX, (getDiamondPoints e).topY)) := by
  have hfw : ((Int.floor (e.width / 2) : ℤ) : ℚ) ≤ e.width / 2 :=
    Int.floor_le (e.width / 2)
  have hfw1 : (1 : ℚ) ≤ ((Int.floor (e.width / 2) : ℤ) : ℚ) := by
    exact_mod_cast Int.le_floor.mpr (by push_cast; linarith)
  have hfh : ((Int.floor (e.height / 2) : ℤ) : ℚ) ≤ e.height / 2 :=
    Int.floor_le (e.height / 2)
  have hfh1 : (1 : ℚ) ≤ ((Int.floor (e.height / 2) : ℤ) : ℚ) := by
    exact_mod_cast Int.le_floor.mpr (by push_cast; linarith)
  refine ⟨rfl, ?_, ?_, ?_, ?_⟩
  · simp only [getDiamondPoints, Ne, Prod.mk.injEq]
    rintro ⟨h1, -⟩
    linarith
  · simp only [getDiamondPoints, Ne, Prod.mk.injEq]
    rintro ⟨h1, -⟩
    linarith
  · simp only [getDiamondPoints, Ne, Prod.mk.injEq]
    rintro ⟨h1, -⟩
    linarith
  · simp only [getDiamondPoints, Ne, Prod.mk.injEq]
    rintro ⟨-, h2⟩
    linarith

/-- C7 (amended) witness: a 4 × 4 diamond. -/
theorem C7_diamond_points_witness :
    getDiamondPoints ⟨0, 0, 4, 4, "#fff"⟩ =
      { topX := ((Int.floor ((4 : ℚ) / 2) : ℤ) : ℚ) + 1, topY := 0, rightX := 4,
        rightY := ((Int.floor ((4 : ℚ) / 2) : ℤ) : ℚ) + 1,
        bottomX := ((Int.floor ((4 : ℚ) / 2) : ℤ) : ℚ) + 1, bottomY := 4,
        leftX := 0, leftY := ((Int.floor ((4 : ℚ) / 2) : ℤ) : ℚ) + 1 } ∧
    ((getDiamondPoints ⟨0, 0, 4, 4, "#fff"⟩).rightX,
        (getDiamondPoints ⟨0, 0, 4, 4, "#fff"⟩).rightY) ≠
      ((getDiamondPoints ⟨0, 0, 4, 4, "#fff"⟩).bottomX,
        (getDiamondPoints ⟨0, 0, 4, 4, "#fff"⟩).bottomY) :=
  ⟨(C7_diamond_points ⟨0, 0, 4, 4, "#fff"⟩ (by norm_num) (by norm_num)).1,
   (C7_diamond_points ⟨0, 0, 4, 4, "#fff"⟩ (by norm_num) (by norm_num)).2.2.1⟩

/-- **C9.** For every element list and every strictly ascending list of
(distinct) in-range indices, `moveOneLeft` moves each selected element exactly
one slot toward index 0 — the element that sat at the `t`-th selected index
`I t` ends up at position `I t - 1`, i.e. it was swapped with its immediate
predecessor — except that a selected element belonging to the contiguous
selected prefix `0, 1, 2, ...` at the front of the sequence (blocked by the
boundary) is left in place; in particular on `[A,B,C,D,E]` (here
`[10,20,30,40,50]`) with indices `[1,3]` the result is `[B,A,D,C,E]`.
Moreover, applying `moveOneLeft` and then `moveOneRight` with the
correspondingly shifted indices (each index decremented) restores the original
list whenever the left pass is not blocked by the front boundary (`1 ≤ x` for
every selected index; the right pass is then automatically unblocked because
the shifted indices end below the back boundary). -/
theorem C9_moveOneLeft_behavior :
    moveOneLeft [10, 20, 30, 40, 50] [1, 3] = [20, 10, 40, 30, 50] ∧
    (∀ (α : Type) (els : List α) (I : List ℕ),
      List.Pairwise (· < ·) I → (∀ x ∈ I, x < els.length) →
      ∀ t, t < I.length →
        ((∀ s, s ≤ t → I.getD s 0 = s) →
          (moveOneLeft els I)[I.getD t 0]? = els[I.getD t 0]?) ∧
        (¬(∀ s, s ≤ t → I.getD s 0 = s) →
          (moveOneLeft els I)[I.getD t 0 - 1]? = els[I.getD t 0]?)) ∧
    (∀ (α : Type) (els : List α) (I : List ℕ),
      List.Pairwise (· < ·) I → (∀ x ∈ I, 1 ≤ x ∧ x < els.length) →
      moveOneRight (moveOneLeft els I) (I.map (fun x => x - 1)) = els) := by
  refine ⟨by decide, ?_, ?_⟩
  · intro α els I hI hin t ht
    exact moveOneLeft_spec els I hI hin t ht
  · intro α els I hI hb
    exact moveOne_inverse els I hI hb

/-- C9 witness: on `[10,20,30,40,50]` with indices `[1,3]`, the element `40`
that sat at selected index 3 ends up at position 2, and the round trip
`moveOneRight (moveOneLeft els [1,3]) [0,2]` restores the list. -/
theorem C9_moveOneLeft_behavior_witness :
    (moveOneLeft [10, 20, 30, 40, 50] [1, 3])[2]? = some 40 ∧
    moveOneRight (moveOneLeft [10, 20, 30, 40, 50] [1, 3]) [0, 2] =
      [10, 20, 30, 40, 50] :=
  ⟨(C9_moveOneLeft_behavior.2.1 ℕ [10, 20, 30, 40, 50] [1, 3]
      (by decide) (by decide) 1 (by decide)).2 (by decide),
   C9_moveOneLeft_behavior.2.2 ℕ [10, 20, 30, 40, 50] [1, 3]
      (by decide) (by decide)⟩

/-- **C10.** For every element list and every list of distinct in-range
indices, each of the four restacking operations `moveOneLeft`, `moveOneRight`,
`moveAllLeft`, `moveAllRight` returns a permutation of the input list — the
same elements, each with the same multiplicity (hence also the same length):
no element is ever lost or duplicated by a restack. -/
theorem C10_restack_permutation :
    ∀ (α : Type) [Inhabited α] (els : List α) (I : List ℕ),
      I.Nodup → (∀ x ∈ I, x < els.length) →
      List.Perm (moveOneLeft els I) els ∧
      List.Perm (moveOneRight els I) els ∧
      List.Perm (moveAllLeft els I) els ∧
      List.Perm (moveAllRight els I) els := by
  intro α inst els I hnd hin
  exact ⟨moveOneLeft_perm els I hin, moveOneRight_perm els I hin,
    moveAllLeft_perm els I hnd hin, moveAllRight_perm els I hnd hin⟩

/-- C10 witness: all four restacks of `[7,8,9]` along index list `[2]` are
permutations of `[7,8,9]`. -/
theorem C10_restack_permutation_witness :
    List.Perm (moveOneLeft [7, 8, 9] [2]) [7, 8, 9] ∧
    List.Perm (moveOneRight [7, 8, 9] [2]) [7, 8, 9] ∧
    List.Perm (moveAllLeft [7, 8, 9] [2]) [7, 8, 9] ∧
    List.Perm (moveAllRight [7, 8, 9] [2]) [7, 8, 9] :=
  C10_restack_permutation ℕ [7, 8, 9] [2] (by decide) (by decide)

/-- **C1.** On the 7-element list `[a,...,g]` (here `[10,...,70]`) with
selected indices `[2,5]`, `moveAllLeft` returns `[c,f,a,b,d,e,g]`; and for
every element list with a strictly ascending list of distinct in-range
selected indices, the result is exactly the selected elements (in their
original relative order) in the leading slots, followed by the non-selected
elements in their original relative order (`dropPosDesc els I.reverse` deletes
the selected positions from `els`, keeping everything else in order). -/
theorem C1_moveAllLeft_structure :
    moveAllLeft [10, 20, 30, 40, 50, 60, 70] [2, 5] =
      [30, 60, 10, 20, 40, 50, 70] ∧
    ∀ (α : Type) [Inhabited α] (els : List α) (I : List ℕ),
      List.Pairwise (· < ·) I → (∀ x ∈ I, x < els.length) →
      moveAllLeft els I =
        I.map (fun i => els.getD i default) ++ dropPosDesc els I.reverse := by
  refine ⟨by decide, ?_⟩
  intro α inst els I hI hin
  exact moveAllLeft_eq els I hI hin

/-- C1 witness: the general placement law applied to `[4,5,6,7]` with selected
indices `[1,3]`. -/
theorem C1_moveAllLeft_structure_witness :
    moveAllLeft [4, 5, 6, 7] [1, 3] =
      [1, 3].map (fun i => [4, 5, 6, 7].getD i default) ++
        dropPosDesc [4, 5, 6, 7] ([1, 3] : List ℕ).reverse :=
  C1_moveAllLeft_structure.2 ℕ [4, 5, 6, 7] [1, 3] (by decide) (by decide)

end Whiteboard
